import Mathlib

/-! # Disk tier of the PaddleFlow client cache

A shallow embedding of `pkg/fs/client/cache/disk.go`: the metadata table, the
capacity counters, the key/path mapping and the operations `NewDiskCache`,
`load`, `save`, `delete`, `clean` and `updateCapacity`, over an explicit model
of the medium (the regular files and the directories of the hosting
filesystem), of the removals that `delete` starts with `go os.Remove(path)` and
that run after it has returned, and of the environment (clock, outcome of each
filesystem call, text of the `df` report).
-/

namespace DiskCache

/-! ## Machine integers and time -/

/-- Two's-complement reduction of an integer to the `int64` range. -/
def wrap64 (x : Int) : Int :=
  (x + 2 ^ 63) % 2 ^ 64 - 2 ^ 63

/-- Largest `int64`, also `math.MaxInt64` and the largest `time.Duration`. -/
def maxInt64 : Int := 2 ^ 63 - 1

/-- Smallest `int64`, also the smallest `time.Duration`. -/
def minInt64 : Int := -(2 ^ 63)

/-- The method `t.Sub(u)` of `time.Time`, instants counted in nanoseconds:
the difference `t - u`, saturated to the range of `time.Duration`. -/
def timeSub (t u : Int) : Int :=
  if t - u > maxInt64 then maxInt64
  else if t - u < minInt64 then minInt64
  else t - u

/-- The method `t.Add(d)` of `time.Time`, instants counted in nanoseconds. -/
def timeAdd (t d : Int) : Int := t + d

/-! ## Paths: `filepath.Clean`, `filepath.Join`, `strings.TrimPrefix` -/

/-- Cut a path at every separator `/`; the pieces may be empty. -/
def splitSlash : List Char → List (List Char)
  | [] => [[]]
  | c :: cs =>
    match splitSlash cs with
    | [] => if c = '/' then [[], []] else [[c]]
    | w :: ws => if c = '/' then [] :: w :: ws else (c :: w) :: ws

/-- One step of the scan of `filepath.Clean` over the elements of a path. The
stack holds the elements written so far, last one first. An empty element and
`.` are dropped; `..` removes the last element when there is one that is not
itself `..`, is kept when the path is not rooted, and is dropped otherwise;
any other element is appended. -/
def cleanStep (rooted : Bool) (stack : List (List Char)) (e : List Char) :
    List (List Char) :=
  if e = [] then stack
  else if e = ['.'] then stack
  else if e = ['.', '.'] then
    match stack with
    | [] => if rooted then [] else [e]
    | top :: rest => if top = ['.', '.'] then e :: top :: rest else rest
  else e :: stack

/-- Elements joined with the separator `/`. -/
def joinSlash : List (List Char) → List Char
  | [] => []
  | [e] => e
  | e :: f :: es => e ++ '/' :: joinSlash (f :: es)

/-- The function `filepath.Clean` on the characters of a Unix path. -/
def cleanChars (p : List Char) : List Char :=
  match p with
  | [] => ['.']
  | c :: _ =>
    let rooted : Bool := c = '/'
    let out := ((splitSlash p).foldl (cleanStep rooted) []).reverse
    if rooted then '/' :: joinSlash out
    else if out = [] then ['.'] else joinSlash out

/-- The function `filepath.Clean`. -/
def Clean (p : String) : String := String.mk (cleanChars p.data)

/-- The function `filepath.Join`: the elements from the first non-empty one on
are joined with `/` and the result is cleaned; with no non-empty element the
result is the empty string. -/
def filepathJoin : List String → String
  | [] => ""
  | e :: es =>
    if e = "" then filepathJoin es
    else Clean (String.mk (joinSlash ((e :: es).map String.data)))

/-- The test `strings.HasPrefix` on characters. -/
def hasPrefixChars : List Char → List Char → Bool
  | _, [] => true
  | [], _ :: _ => false
  | c :: cs, d :: ds => c = d && hasPrefixChars cs ds

/-- The function `strings.TrimPrefix`. -/
def TrimPrefix (s pre : String) : String :=
  if hasPrefixChars s.data pre.data then String.mk (s.data.drop pre.data.length) else s

/-- The constant `CacheDir`. -/
def CacheDir : String := "datacache"

/-- The part of a path up to and including its last separator. -/
def dirChars (p : List Char) : List Char :=
  (p.reverse.dropWhile (fun ch => decide (ch ≠ '/'))).reverse

/-- The function `filepath.Dir`: the path without its last element, cleaned. -/
def filepathDir (p : String) : String := Clean (String.mk (dirChars p.data))

/-- The non-empty beginnings of a list of elements, shortest first. -/
def elemPrefixes : List (List Char) → List (List (List Char))
  | [] => []
  | e :: es => [e] :: (elemPrefixes es).map (fun t => e :: t)

/-- A path with its ancestors, outermost first: the beginnings of the path
that end where an element ends. -/
def ancestors (d : String) : List String :=
  ((elemPrefixes (splitSlash d.data)).map (fun es => String.mk (joinSlash es))).filter
    (fun q => decide (q ≠ ""))

/-- A directory that is there whatever the medium holds: the filesystem root,
the working directory and the directories above it. -/
def implicitDir (p : String) : Bool :=
  decide (p = "/") || decide (p = ".") ||
    (splitSlash p.data).all (fun e => decide (e = ['.', '.']))

/-! ## Text of the disk-usage report: `bufio`, `strings`, `strconv` -/

/-- A byte slice. -/
abbrev Bytes := List UInt8

/-- The bytes of a string of ASCII characters. -/
def ascii (s : String) : Bytes := s.data.map (fun ch => UInt8.ofNat ch.toNat)

/-- The size of the buffer of `bufio.NewReader`. -/
def defaultBufSize : Nat := 4096

/-- Index of the first line feed among the first `n` bytes, if there is one. -/
def indexLF : Nat → Bytes → Option Nat
  | 0, _ => none
  | _, [] => none
  | n + 1, b :: r => if b = 10 then some 0 else (indexLF n r).map (· + 1)

/-- A line without the carriage return that ended it, if one did. -/
def dropCR (line : Bytes) : Bytes :=
  if line.getLast? = some 13 then line.dropLast else line

/-- The method `ReadLine` of a `bufio.Reader` with the default buffer over the
unread bytes `r`: the next line and the bytes left, or `none` at end of input.
A line feed within the buffer ends the line (it is dropped, with a carriage
return before it). Without one, a full buffer is handed out as a line of its
own, less a final carriage return, which is put back; a shorter remainder is
the last line. -/
def ReadLine (r : Bytes) : Option (Bytes × Bytes) :=
  match indexLF defaultBufSize r with
  | some i => some (dropCR (r.take i), r.drop (i + 1))
  | none =>
    if defaultBufSize ≤ r.length then
      if (r.take defaultBufSize).getLast? = some 13 then
        some (r.take (defaultBufSize - 1), r.drop (defaultBufSize - 1))
      else some (r.take defaultBufSize, r.drop defaultBufSize)
    else if r = [] then none
    else some (r, [])

/-- The test `strings.HasPrefix` on bytes. -/
def hasPrefixBytes : Bytes → Bytes → Bool
  | _, [] => true
  | [], _ :: _ => false
  | c :: cs, d :: ds => c = d && hasPrefixBytes cs ds

/-- The six ASCII white-space bytes: tab, line feed, vertical tab, form feed,
carriage return, space. -/
def isAsciiSpace (b : UInt8) : Bool :=
  b = 9 || b = 10 || b = 11 || b = 12 || b = 13 || b = 32

/-- Width in bytes of the white-space rune (`unicode.IsSpace`) that starts the
bytes, `0` when they do not start with one. Beyond ASCII these are U+0085,
U+00A0, U+1680, U+2000 to U+200A, U+2028, U+2029, U+202F, U+205F and U+3000 in
their UTF-8 encodings. -/
def spaceLen : Bytes → Nat
  | [] => 0
  | [b] => if isAsciiSpace b then 1 else 0
  | [b, c] =>
    if isAsciiSpace b then 1
    else if b = 0xC2 && (c = 0x85 || c = 0xA0) then 2
    else 0
  | b :: c :: d :: _ =>
    if isAsciiSpace b then 1
    else if b = 0xC2 && (c = 0x85 || c = 0xA0) then 2
    else if b = 0xE1 && c = 0x9A && d = 0x80 then 3
    else if b = 0xE2 && c = 0x80 &&
        ((decide (0x80 ≤ d) && decide (d ≤ 0x8A)) || d = 0xA8 || d = 0xA9 || d = 0xAF) then 3
    else if b = 0xE2 && c = 0x81 && d = 0x9F then 3
    else if b = 0xE3 && c = 0x80 && d = 0x80 then 3
    else 0

/-- Width in bytes of the white-space rune that ends a string, given the
string reversed; `0` when it does not end with one. -/
def spaceLenRev (rev : Bytes) : Nat :=
  if spaceLen (rev.take 1) = 1 then 1
  else if spaceLen (rev.take 2).reverse = 2 then 2
  else if spaceLen (rev.take 3).reverse = 3 then 3
  else 0

/-- Drop the white-space runes at the head; `skip` counts the bytes still to
drop of a rune already recognised, `width` recognises a rune. -/
def trimAux (width : Bytes → Nat) : Nat → Bytes → Bytes
  | _, [] => []
  | skip + 1, _ :: r => trimAux width skip r
  | 0, b :: r =>
    match width (b :: r) with
    | 0 => b :: r
    | n + 1 => trimAux width n r

/-- The function `strings.TrimSpace`. -/
def TrimSpace (s : Bytes) : Bytes :=
  (trimAux spaceLenRev 0 (trimAux spaceLen 0 s).reverse).reverse

/-- The field being read, closed: nothing when it is empty. -/
def flushField (cur : Bytes) : List Bytes :=
  if cur = [] then [] else [cur.reverse]

/-- Scan for `strings.Fields`: `cur` is the field being read, reversed, and
`skip` counts the bytes still to drop of a white-space rune. -/
def fieldsAux : Nat → Bytes → Bytes → List Bytes
  | _, cur, [] => flushField cur
  | skip + 1, cur, _ :: r => fieldsAux skip cur r
  | 0, cur, b :: r =>
    match spaceLen (b :: r) with
    | 0 => fieldsAux 0 (b :: cur) r
    | n + 1 => flushField cur ++ fieldsAux n [] r

/-- The function `strings.Fields`: the maximal runs of bytes without a
white-space rune. -/
def Fields (s : Bytes) : List Bytes := fieldsAux 0 [] s

/-- Value of a run of decimal digits, `none` when a byte is not a digit. -/
def parseDigits : Nat → Bytes → Option Nat
  | acc, [] => some acc
  | acc, b :: r =>
    if decide (48 ≤ b) && decide (b ≤ 57) then parseDigits (acc * 10 + (b.toNat - 48)) r
    else none

/-- The call `strconv.ParseInt(s, 10, 64)`: an optional sign and at least one
decimal digit, the value within `int64`; `none` stands for any error. -/
def ParseInt (s : Bytes) : Option Int :=
  match s with
  | [] => none
  | b :: r =>
    let neg : Bool := b = 45
    let digits : Bytes := if b = 43 || b = 45 then r else s
    if digits = [] then none
    else
      match parseDigits 0 digits with
      | none => none
      | some un =>
        if !neg && decide ((2 : Int) ^ 63 ≤ (un : Int)) then none
        else if neg && decide ((2 : Int) ^ 63 < (un : Int)) then none
        else some (if neg then -(un : Int) else (un : Int))

/-- Outcome of reading the report: the two numbers of the first data line, an
error, or no answer within the allotted steps. -/
inductive Probe where
  | found (total used : Int)
  | failed
  | outOfFuel
deriving DecidableEq, Repr

/-- The loop of `updateCapacity` over the unread bytes of the report, at most
`fuel` lines. -/
def scanReport : Nat → Bytes → Probe
  | 0, _ => Probe.outOfFuel
  | fuel + 1, r =>
    match ReadLine r with
    | none => Probe.failed
    | some (line, rest) =>
      if hasPrefixBytes line (ascii "Filesystem") then scanReport fuel rest
      else
        let strSlice := Fields (TrimSpace line)
        if strSlice.length < 6 then scanReport fuel rest
        else
          match ParseInt (strSlice.getD 1 []) with
          | none => Probe.failed
          | some total =>
            match ParseInt (strSlice.getD 2 []) with
            | none => Probe.failed
            | some used => Probe.found total used

/-! ## Data model -/

/-- The record `cacheItem`: size of a cached payload and the instant at which
it expires. -/
structure cacheItem where
  size : Int
  expTime : Int
deriving DecidableEq, Repr

/-- The record `diskCache` without its lock. The map `keys` is a list of
key/entry pairs; a key is looked up at its first pair. -/
structure diskCache where
  dir : String
  capacity : Int
  used : Int
  expire : Int
  keys : List (String × cacheItem)
deriving DecidableEq, Repr

/-- The record `DiskConfig`. -/
structure DiskConfig where
  Dir : String
  Mode : Nat
  Expire : Int
deriving DecidableEq, Repr

/-- Map lookup `m[key]`. -/
def mapGet {β : Type} : List (String × β) → String → Option β
  | [], _ => none
  | (k, v) :: r, key => if k = key then some v else mapGet r key

/-- Map assignment `m[key] = v`. -/
def mapSet {β : Type} : List (String × β) → String → β → List (String × β)
  | [], key, v => [(key, v)]
  | (k, x) :: r, key, v => if k = key then (key, v) :: r else (k, x) :: mapSet r key v

/-- Map removal `delete(m, key)`. -/
def mapDelete {β : Type} (m : List (String × β)) (key : String) : List (String × β) :=
  m.filter (fun e => decide (e.1 ≠ key))

/-- What stands at a path of the medium: a regular file with its content, or
a directory. -/
inductive Node where
  | file (content : Bytes)
  | dir
deriving DecidableEq, Repr

/-- The medium: the hosting filesystem, as the nodes that stand at its paths.
A path is looked up at its first pair, so a path holds one node at most. -/
structure Medium where
  nodes : List (String × Node)
deriving DecidableEq, Repr

/-- What `os.Stat` finds at a path, if anything: the node recorded there, or
one of the directories that are always there. -/
def Medium.stat (m : Medium) (path : String) : Option Node :=
  match mapGet m.nodes path with
  | some n => some n
  | none => if implicitDir path then some Node.dir else none

/-- Content of the regular file at a path, if a regular file stands there. -/
def Medium.read (m : Medium) (path : String) : Option Bytes :=
  match mapGet m.nodes path with
  | some (Node.file content) => some content
  | _ => none

/-- A directory stands at the path. -/
def Medium.isDir (m : Medium) (path : String) : Bool :=
  decide (m.stat path = some Node.dir)

/-- The medium with a regular file at a path holding the given content. -/
def Medium.write (m : Medium) (path : String) (content : Bytes) : Medium :=
  ⟨mapSet m.nodes path (Node.file content)⟩

/-- The medium after `os.Mkdir(path)` went through: a directory at the path
when nothing stood there. -/
def Medium.mkdir (m : Medium) (path : String) : Medium :=
  if (m.stat path).isSome then m else ⟨mapSet m.nodes path Node.dir⟩

/-- The medium without a node at a path. -/
def Medium.remove (m : Medium) (path : String) : Medium :=
  ⟨mapDelete m.nodes path⟩

/-- Some node stands below the path. -/
def Medium.hasBelow (m : Medium) (path : String) : Bool :=
  m.nodes.any (fun e => hasPrefixChars e.1.data (path ++ "/").data)

/-- What the program cannot decide by itself: for each filesystem call whether
it fails on a given path for a reason of the environment (permissions, I/O
error, descriptor limit), how many bytes a failing write leaves behind, and
the outcome of running `df -k` on the cache root (`none`: the command fails).
A call also fails when the shape of the tree forbids it; that is decided by
the medium, in the model of each call. -/
structure Env where
  statErr : String → Bool
  openErr : String → Bool
  mkdirErr : String → Bool
  createErr : String → Bool
  writeErr : String → Option Nat
  closeErr : String → Bool
  renameErr : String → Bool
  removeErr : String → Bool
  lstatErr : String → Bool
  readDirErr : String → Bool
  dfOutput : Option Bytes

/-- An environment in which no call fails for a reason of its own and `df`
prints the report. -/
def Env.reliable (report : Bytes) : Env where
  statErr := fun _ => false
  openErr := fun _ => false
  mkdirErr := fun _ => false
  createErr := fun _ => false
  writeErr := fun _ => none
  closeErr := fun _ => false
  renameErr := fun _ => false
  removeErr := fun _ => false
  lstatErr := fun _ => false
  readDirErr := fun _ => false
  dfOutput := some report

/-- A cache instance, the medium it lives on, and the removals that `delete`
has started with `go os.Remove(path)` and that have not run yet. -/
structure World where
  c : diskCache
  fs : Medium
  pending : List String
deriving DecidableEq, Repr

/-- The call `os.Remove(path)`: the medium afterwards and whether an error is
returned. A regular file is removed, a directory is removed when nothing
stands below it; the call fails for a reason of the environment, when nothing
is recorded at the path and on a directory that is not empty. -/
def osRemove (env : Env) (m : Medium) (path : String) : Medium × Bool :=
  if env.removeErr path then (m, true)
  else
    match mapGet m.nodes path with
    | none => (m, true)
    | some (Node.file _) => (m.remove path, false)
    | some Node.dir => if m.hasBelow path then (m, true) else (m.remove path, false)

/-- The recursion of `os.MkdirAll` over a path and its ancestors, innermost
first: a directory that is there ends it with success, a regular file with an
error; otherwise the parent is made first and then the directory itself. -/
def mkdirAllAux (env : Env) : List String → Medium → Medium × Bool
  | [], m => (m, false)
  | q :: parents, m =>
    if m.isDir q then (m, false)
    else if (m.stat q).isSome then (m, true)
    else
      let r := mkdirAllAux env parents m
      if r.2 then r
      else if env.mkdirErr q then (r.1, true)
      else (r.1.mkdir q, false)

/-- The call `os.MkdirAll(dir)`: the medium afterwards and whether an error is
returned. -/
def MkdirAll (env : Env) (m : Medium) (dir : String) : Medium × Bool :=
  mkdirAllAux env (ancestors dir).reverse m

/-! ## Operations -/

/-- The method `cachePath`. -/
def cachePath (c : diskCache) (key : String) : String :=
  filepathJoin [c.dir, CacheDir, key]

/-- The method `getKeyFromCachePath`. -/
def getKeyFromCachePath (c : diskCache) (path : String) : String :=
  TrimPrefix path (filepathJoin [c.dir, CacheDir] ++ "/")

/-- The method `exist`: the key has an entry and the entry has not expired. -/
def exist (now : Int) (c : diskCache) (key : String) : Bool :=
  match mapGet c.keys key with
  | none => false
  | some value => if timeSub value.expTime now ≤ 0 then false else true

/-- The method `updateCapacity`: the cache afterwards and whether the probe
succeeded (a `nil` error). The counters change only when a data line of the
report has been parsed. -/
def updateCapacity (env : Env) (c : diskCache) : diskCache × Bool :=
  match env.dfOutput with
  | none => (c, false)
  | some output =>
    match scanReport (output.length + 1) output with
    | Probe.found total used =>
      ({ c with capacity := wrap64 (total * 1024), used := wrap64 (used * 1024) }, true)
    | Probe.failed => (c, false)
    | Probe.outOfFuel => (c, false)

/-- The function `NewDiskCache`, the instance it returns; `none` for the config
is the `nil` pointer and `none` for the result the `nil` instance. The
directory it makes is in `NewDiskCacheMedium`; the reclamation loop it starts
runs `clean` later on. -/
def NewDiskCache (env : Env) (config : Option DiskConfig) : Option diskCache :=
  match config with
  | none => none
  | some cfg =>
    if cfg.Dir = "" || cfg.Dir = "/" then none
    else
      let d : diskCache :=
        { dir := cfg.Dir, capacity := 0, used := 0, expire := cfg.Expire, keys := [] }
      some (updateCapacity env d).1

/-- The function `NewDiskCache`, the medium it leaves: the root directory is
made with `os.MkdirAll(config.Dir)` when an instance is returned. -/
def NewDiskCacheMedium (env : Env) (config : Option DiskConfig) (fs : Medium) : Medium :=
  match config with
  | none => fs
  | some cfg =>
    if cfg.Dir = "" || cfg.Dir = "/" then fs
    else (MkdirAll env fs (Clean cfg.Dir)).1

/-- The method `load`: the node the stream handed out is open on
(`found = true`) or `none` for `(nil, false)`, together with the state after
the call. `os.Stat` and `os.Open` go through on a directory as they do on a
regular file. -/
def load (env : Env) (now : Int) (w : World) (key : String) : Option Node × World :=
  if w.c.dir = "" then (none, w)
  else if !exist now w.c key then (none, w)
  else
    let path := cachePath w.c key
    match w.fs.stat path with
    | none => (none, w)
    | some node =>
      if env.statErr path then (none, w)
      else if env.openErr path then (none, w)
      else (some node, w)

/-- The method `delete`: the entry is dropped and the removal of the file is
started with `go os.Remove(path)`; it is recorded as pending and `delete`
returns without touching the medium. -/
def delete (w : World) (key : String) : World :=
  let path := cachePath w.c key
  let c1 : diskCache :=
    if (mapGet w.c.keys key).isSome then { w.c with keys := mapDelete w.c.keys key } else w.c
  { c := c1, fs := w.fs, pending := if path ≠ "" then w.pending ++ [path] else w.pending }

/-- One pending removal runs: the call `os.Remove(path)` of the goroutine that
`delete` started, its error dropped. It runs between two operations; a
removal that lands while another operation is under way is outside the
model. -/
def landOne (env : Env) (w : World) (i : Nat) : World :=
  match w.pending.get? i with
  | none => w
  | some path =>
    { w with fs := (osRemove env w.fs path).1, pending := w.pending.eraseIdx i }

/-- Every pending removal runs, in the order in which they were started. -/
def landAll (env : Env) (w : World) : World :=
  { w with fs := w.pending.foldl (fun m path => (osRemove env m path).1) w.fs, pending := [] }

/-- The states a state can pass to while pending removals run, any number of
them and in any order. -/
inductive Lands (env : Env) : World → World → Prop where
  | refl (w : World) : Lands env w w
  | step (w w' : World) (i : Nat) : Lands env w w' → Lands env w (landOne env w' i)

/-- First phase of `clean`: the loop over the entries, one entry. -/
def expireStep (now : Int) (w : World) (e : String × cacheItem) : World :=
  if 0 ≤ timeSub now e.2.expTime then delete w e.1 else w

/-- Lexicographic order on characters by code point, the order of
`sort.Strings` on UTF-8. -/
def charsLt : List Char → List Char → Bool
  | _, [] => false
  | [], _ :: _ => true
  | a :: as, b :: bs => decide (a.toNat < b.toNat) || (a = b && charsLt as bs)

/-- Order in which `filepath.Walk` meets two files: element by element, each
directory listed in sorted order. -/
def elemsLt : List (List Char) → List (List Char) → Bool
  | _, [] => false
  | [], _ :: _ => true
  | a :: as, b :: bs => charsLt a b || (a = b && elemsLt as bs)

/-- Whether `filepath.Walk` meets the first path before the second. -/
def walkBefore (a b : String) : Bool :=
  elemsLt (splitSlash a.data) (splitSlash b.data)

/-- Insertion of a path into a list of paths in walk order. -/
def walkInsert (p : String) : List String → List String
  | [] => [p]
  | q :: qs => if walkBefore q p then q :: walkInsert p qs else p :: q :: qs

/-- Paths put in walk order. -/
def walkSort : List String → List String
  | [] => []
  | p :: ps => walkInsert p (walkSort ps)

/-- The directories `filepath.Walk(root, ...)` goes through on its way to the
path `p`: the root, when `p` lies below it, and the directories between. -/
def walkDirs (root p : String) : List String :=
  (ancestors (filepathDir p)).filter
    (fun d => decide (d = root) || hasPrefixChars d.data (root ++ "/").data)

/-- The walk gets as far as the path `p`: on each directory on the way `Lstat`
and the reading of the names go through. A directory on which one of them
fails is handed to the callback with the error, the callback of `clean`
returns `nil` on it, and the walk goes on without descending. -/
def Env.walkReaches (env : Env) (root p : String) : Bool :=
  (walkDirs root p).all (fun d => !env.lstatErr d && !env.readDirErr d)

/-- The regular files `filepath.Walk(root, ...)` reaches, in the order it
reaches them: the root when it is itself a regular file, and the regular
files below it in directories the walk gets into. Directories are met too,
and the callback of `clean` returns at once on them. -/
def walkFiles (env : Env) (m : Medium) (root : String) : List String :=
  walkSort ((m.nodes.map (fun e => e.1)).dedup.filter
    (fun p => (m.read p).isSome &&
      (decide (p = root) || hasPrefixChars p.data (root ++ "/").data) &&
      env.walkReaches root p))

/-- The callback `clean` passes to `filepath.Walk`, at one regular file. The
flag says that an earlier call returned an error, which ends the walk. A file
whose `Lstat` fails comes with `info == nil` and is passed over; a file whose
recovered key has an entry is kept; any other file is removed, and the error
of the removal is returned. -/
def sweepStep (env : Env) (c : diskCache) (acc : Medium × Bool) (path : String) :
    Medium × Bool :=
  if acc.2 then acc
  else if env.lstatErr path then acc
  else if (mapGet c.keys (getKeyFromCachePath c path)).isSome then acc
  else osRemove env acc.1 path

/-- First phase of `clean`: every entry that has expired is deleted. The
entries are visited in the order of the list; `expireFold_perm` shows that the
order does not matter to the table, and the removals set off may land in any
order. -/
def expirePass (now : Int) (w : World) : World :=
  w.c.keys.foldl (expireStep now) w

/-- Second phase of `clean`: the walk over the cache directory; the medium
afterwards and whether the walk was ended by an error. -/
def sweepPass (env : Env) (c : diskCache) (fs : Medium) : Medium × Bool :=
  (walkFiles env fs (filepathJoin [c.dir, CacheDir])).foldl (sweepStep env c) (fs, false)

/-- The method `clean`: expired entries are deleted, then, unless the root is
empty or `/`, the files below the cache directory without an entry are
removed and the capacity is probed again. -/
def clean (env : Env) (now : Int) (w : World) : World :=
  let w1 := expirePass now w
  if w1.c.dir = "/" || w1.c.dir = "" then w1
  else
    { c := (updateCapacity env w1.c).1, fs := (sweepPass env w1.c w1.fs).1,
      pending := w1.pending }

/-- The method `createDir`: the call `os.MkdirAll(dir, 0755)`. The code drops
the error; it is kept here with the medium, since a directory that could not
be made decides the outcome of the call that follows. -/
def createDir (env : Env) (m : Medium) (dir : String) : Medium × Bool :=
  MkdirAll env m dir

/-- The call `os.Create(tmp)` fails: for a reason of the environment, when the
directory could not be made, or when a directory stands at the path. -/
def createFails (env : Env) (made : Medium × Bool) (tmp : String) : Bool :=
  env.createErr tmp || made.2 || made.1.isDir tmp

/-- The call `os.Rename(tmp, path)` fails: for a reason of the environment, or
when a directory stands at the target. -/
def renameFails (env : Env) (m : Medium) (tmp path : String) : Bool :=
  env.renameErr tmp || m.isDir path

/-- Steps of `save` that write the payload; `w` is the state once the
capacity test has been passed. -/
def saveWrite (env : Env) (now : Int) (w : World) (key : String) (buf : Bytes) : World :=
  let cacheSize : Int := buf.length
  let path := cachePath w.c key
  let made := createDir env w.fs (filepathDir path)
  let tmp := path ++ ".tmp"
  if createFails env made tmp then { w with fs := made.1 }
  else
    let fs1 := made.1.write tmp []
    match env.writeErr tmp with
    | some n => { w with fs := (osRemove env (fs1.write tmp (buf.take n)) tmp).1 }
    | none =>
      let fs2 := fs1.write tmp buf
      if env.closeErr tmp then { w with fs := (osRemove env fs2 tmp).1 }
      else if renameFails env fs2 tmp path then { w with fs := (osRemove env fs2 tmp).1 }
      else
        { c := { w.c with
                 keys := mapSet w.c.keys key
                   { size := cacheSize, expTime := timeAdd now w.c.expire } },
          fs := (fs2.remove tmp).write path buf,
          pending := w.pending }

/-- The first capacity test of `save` and the reclamation pass it triggers:
the state in which the second test is made. -/
def afterReclaim (env : Env) (now : Int) (w : World) (buf : Bytes) : World :=
  if w.c.capacity ≤ wrap64 (w.c.used + (buf.length : Int)) then clean env now w else w

/-- The method `save`. -/
def save (env : Env) (now : Int) (w : World) (key : String) (buf : Bytes) : World :=
  if w.c.dir = "" then w
  else
    let w1 := afterReclaim env now w buf
    if w1.c.capacity ≤ wrap64 (w1.c.used + (buf.length : Int)) then w1
    else saveWrite env now w1 key buf

/-- Every call of the write path of `save` goes through on the medium `m` for
the cache file `path`: `os.Create` (the directory has been made, no directory
stands at the temporary path, no failure of the environment), `Write`,
`Close` and `os.Rename` (no directory stands at the cache path, no failure of
the environment). -/
def writePathOk (env : Env) (m : Medium) (path : String) : Bool :=
  !createFails env (MkdirAll env m (filepathDir path)) (path ++ ".tmp") &&
    (env.writeErr (path ++ ".tmp")).isNone && !env.closeErr (path ++ ".tmp") &&
    !env.renameErr (path ++ ".tmp") && !(MkdirAll env m (filepathDir path)).1.isDir path

/-- The read path of `load` meets no failure of the environment on the cache
file. -/
def Env.readOk (env : Env) (path : String) : Bool :=
  !env.statErr path && !env.openErr path

/-- The state `save` commits when no step fails. -/
def committed (env : Env) (now : Int) (w : World) (key : String) (buf : Bytes) : World :=
  { c := { w.c with
           keys := mapSet w.c.keys key
             { size := (buf.length : Int), expTime := timeAdd now w.c.expire } },
    fs := (((((MkdirAll env w.fs (filepathDir (cachePath w.c key))).1.write
      (cachePath w.c key ++ ".tmp") []).write
      (cachePath w.c key ++ ".tmp") buf).remove (cachePath w.c key ++ ".tmp")).write
      (cachePath w.c key) buf),
    pending := w.pending }

/-- The lines `updateCapacity` gets from the report, one `ReadLine` after the
other, at most `fuel` of them. -/
def linesAux : Nat → Bytes → List Bytes
  | 0, _ => []
  | fuel + 1, r =>
    match ReadLine r with
    | none => []
    | some (line, rest) => line :: linesAux fuel rest

/-- The lines `updateCapacity` gets from the report until the end of input. -/
def reportLines (output : Bytes) : List Bytes := linesAux (output.length + 1) output

/-- The pieces of a text between its line feeds; there is always a last piece,
which is empty when the text ends with a line feed. -/
def splitLF : Bytes → List Bytes
  | [] => [[]]
  | b :: r =>
    match splitLF r with
    | [] => if b = 10 then [[], []] else [[b]]
    | w :: ws => if b = 10 then [] :: w :: ws else (b :: w) :: ws

/-- The lines of a text from its pieces: a piece that a line feed ends is a
line, without the carriage return before the line feed; the last piece is a
line when it is not empty. -/
def linesOfPieces : List Bytes → List Bytes
  | [] => []
  | [last] => if last = [] then [] else [last]
  | p :: q :: ps => dropCR p :: linesOfPieces (q :: ps)

/-- The lines of a text. -/
def textLines (output : Bytes) : List Bytes := linesOfPieces (splitLF output)

/-- A line the probe passes over: it starts with `Filesystem` or has fewer
than 6 white-space separated fields. -/
def skipsLine (line : Bytes) : Bool :=
  hasPrefixBytes line (ascii "Filesystem") || decide ((Fields (TrimSpace line)).length < 6)

/-- The probe as the specification words it, over the lines of the text of
the report: lines that start with `Filesystem` or have fewer than 6 fields
are skipped; on the first remaining line, field 2 and field 3 are read as
base-10 `int64` and the counters become 1024 times these numbers; when a
field does not parse or no line remains, an error is returned and the cache
is left as it was. The flag says that no error is returned. -/
def probeSpec (c : diskCache) : List Bytes → diskCache × Bool
  | [] => (c, false)
  | line :: rest =>
    if skipsLine line then probeSpec c rest
    else
      match ParseInt ((Fields (TrimSpace line)).getD 1 []),
          ParseInt ((Fields (TrimSpace line)).getD 2 []) with
      | some total, some used =>
        ({ c with capacity := 1024 * total, used := 1024 * used }, true)
      | _, _ => (c, false)

/-- The number, if there is one, is still an `int64` when multiplied by
1024. -/
def fitsKilo : Option Int → Bool
  | none => true
  | some x => decide (minInt64 ≤ 1024 * x) && decide (1024 * x ≤ maxInt64)

/-- The two numbers of the first line the probe does not skip, where they
parse, are still `int64` when multiplied by 1024. -/
def productsFit : List Bytes → Bool
  | [] => true
  | line :: rest =>
    if skipsLine line then productsFit rest
    else fitsKilo (ParseInt ((Fields (TrimSpace line)).getD 1 [])) &&
      fitsKilo (ParseInt ((Fields (TrimSpace line)).getD 2 []))

/-- What `updateCapacity` does with the outcome of reading the report. -/
def storeProbe (c : diskCache) : Probe → diskCache × Bool
  | Probe.found total used =>
    ({ c with capacity := wrap64 (total * 1024), used := wrap64 (used * 1024) }, true)
  | Probe.failed => (c, false)
  | Probe.outOfFuel => (c, false)

/-- An element of a path that `filepath.Clean` keeps as it is: not empty, not
`.` and not `..`. -/
def plainElem (e : List Char) : Bool :=
  !decide (e = []) && !decide (e = ['.']) && !decide (e = ['.', '.'])

/-- A key in path form: elements separated by single slashes, none of them
empty, `.` or `..` (so the key is not empty and neither starts nor ends with
a slash). -/
def plainKey (k : String) : Bool := (splitSlash k.data).all plainElem

/-! ## Sample states -/

/-- A cache rooted at `/c` with room for 100 bytes, a TTL of 10 and no entry,
on a medium that holds the root directory only. -/
def emptyWorld : World :=
  { c := { dir := "/c", capacity := 100, used := 0, expire := 10, keys := [] },
    fs := ⟨[("/c", Node.dir)]⟩, pending := [] }

/-- The same cache with a TTL of zero. -/
def zeroTtlWorld : World :=
  { c := { dir := "/c", capacity := 100, used := 0, expire := 0, keys := [] },
    fs := ⟨[("/c", Node.dir)]⟩, pending := [] }

/-- A cache rooted at `/c` that holds a live entry for `k` and its payload. -/
def liveWorld : World :=
  { c := { dir := "/c", capacity := 100, used := 0, expire := 10, keys := [("k", ⟨1, 5⟩)] },
    fs := ⟨[("/c", Node.dir), ("/c/datacache", Node.dir),
            ("/c/datacache/k", Node.file [7])]⟩,
    pending := [] }

/-- A report of `df -k` for a filesystem of 1 KB that is full. -/
def fullReport : Bytes :=
  ascii "Filesystem 1K-blocks Used Available Use% Mounted on\n/dev/sda1 1 1 0 100% /c\n"

/-- A report of `df -k` whose data line has a size that is not a number. -/
def badReport : Bytes :=
  ascii "Filesystem 1K-blocks Used Available Use% Mounted on\n\ntmpfs - 1 0 100% /c\n/dev/sda1 8 4 4 50% /\n"

/-- A report of `df -k` for a filesystem of 2^53 blocks of 1 KB. -/
def overflowReport : Bytes :=
  ascii "Filesystem 1K-blocks Used Available Use% Mounted on\n/dev/sda1 9007199254740992 1 0 1% /c\n"

/-- The first 4096 bytes of a line that starts with `Filesystem`: the word
and 4086 spaces. -/
def longHeader : Bytes := ascii "Filesystem" ++ List.replicate 4086 32

/-- A report of one line of 4107 bytes, which starts with `Filesystem` and
ends with six fields. -/
def longReport : Bytes := longHeader ++ ascii "a 7 7 7 7 7\n"

/-- A cache rooted at `/c` whose counters say the filesystem is full, holding a
live entry for `k` and a stray file. -/
def fullWorld : World :=
  { c := { dir := "/c", capacity := 1024, used := 1024, expire := 10,
           keys := [("k", ⟨1, 5⟩)] },
    fs := ⟨[("/c", Node.dir), ("/c/datacache", Node.dir),
            ("/c/datacache/k", Node.file [7]), ("/c/datacache/stray", Node.file [8])]⟩,
    pending := [] }

/-- An environment in which creating a file fails and every other call goes
through. -/
def Env.createFails : Env :=
  { Env.reliable [] with createErr := fun _ => true }

/-- An environment in which renaming a file fails and every other call goes
through. -/
def Env.renameFails : Env :=
  { Env.reliable [] with renameErr := fun _ => true }

/-- An environment in which removing a file fails and every other call goes
through. -/
def Env.removeFails : Env :=
  { Env.reliable [] with removeErr := fun _ => true }

/-- An environment in which removing the file `/c/datacache/a` fails and every
other call goes through. -/
def Env.removeFailsAtA : Env :=
  { Env.reliable [] with removeErr := fun p => decide (p = "/c/datacache/a") }

/-- An environment in which `Lstat` fails on the file `/c/datacache/a` and
every other call goes through. -/
def Env.lstatFailsAtA : Env :=
  { Env.reliable [] with lstatErr := fun p => decide (p = "/c/datacache/a") }

/-- An environment in which no directory can be read and every other call goes
through. -/
def Env.readDirFails : Env :=
  { Env.reliable [] with readDirErr := fun _ => true }

/-- A cache rooted at `/c` with no entry, on a medium where an earlier run
left a temporary file behind. -/
def staleTmpWorld : World :=
  { c := { dir := "/c", capacity := 100, used := 0, expire := 10, keys := [] },
    fs := ⟨[("/c", Node.dir), ("/c/datacache", Node.dir),
            ("/c/datacache/k.tmp", Node.file [9])]⟩,
    pending := [] }

/-- A cache rooted at `/c` with no entry, on a medium where a file stands at
the path of the key `k`. -/
def orphanWorld : World :=
  { c := { dir := "/c", capacity := 100, used := 0, expire := 10, keys := [] },
    fs := ⟨[("/c", Node.dir), ("/c/datacache", Node.dir),
            ("/c/datacache/k", Node.file [7])]⟩,
    pending := [] }

/-- A cache rooted at `/c` with no entry, on a medium where two files without
an entry stand below the cache directory. -/
def twoOrphansWorld : World :=
  { c := { dir := "/c", capacity := 100, used := 0, expire := 10, keys := [] },
    fs := ⟨[("/c", Node.dir), ("/c/datacache", Node.dir),
            ("/c/datacache/a", Node.file [1]), ("/c/datacache/b", Node.file [2])]⟩,
    pending := [] }

/-- The state reached from the empty sample cache by `save("k", [7])` at the
instant 0, every call going through, and a `clean` at the instant 5 whose
probe finds the filesystem full: the counters say so and the entry for `k`,
with its payload on the medium, expires at the instant 10. -/
def expiredFullWorld : World :=
  clean (Env.reliable fullReport) 5 (save (Env.reliable []) 0 emptyWorld "k" [7])

/-- The state reached from the empty sample cache by `save("a.tmp", [1])`,
`save("a", [2])` and `save("a.tmp/x", [3])` at the instant 0, every call
going through. -/
def dirAtPathWorld : World :=
  save (Env.reliable []) 0
    (save (Env.reliable []) 0 (save (Env.reliable []) 0 emptyWorld "a.tmp" [1]) "a" [2])
    "a.tmp/x" [3]

/-! ## Arithmetic and map lemmas -/

/-- On a sum that fits `int64` the machine addition is the plain one. -/
theorem wrap64_eq_self (x : Int) (hlo : -(2 ^ 63) ≤ x) (hhi : x < 2 ^ 63) : wrap64 x = x := by
  unfold wrap64
  rw [Int.emod_eq_of_lt (by omega) (by omega)]
  omega

theorem timeSub_nonpos_iff (t u : Int) : timeSub t u ≤ 0 ↔ t ≤ u := by
  unfold timeSub maxInt64 minInt64
  norm_num
  split_ifs <;> constructor <;> intro h <;> omega

theorem timeSub_nonneg_iff (t u : Int) : 0 ≤ timeSub t u ↔ u ≤ t := by
  unfold timeSub maxInt64 minInt64
  norm_num
  split_ifs <;> constructor <;> intro h <;> omega

theorem mapGet_mapSet_self {β : Type} (m : List (String × β)) (k : String) (v : β) :
    mapGet (mapSet m k v) k = some v := by
  induction m with
  | nil => simp [mapSet, mapGet]
  | cons e r ih =>
    obtain ⟨k', x⟩ := e
    by_cases h : k' = k <;> simp [mapSet, mapGet, h, ih]

theorem mapGet_mapSet_ne {β : Type} (m : List (String × β)) (k k' : String) (v : β)
    (h : k' ≠ k) : mapGet (mapSet m k v) k' = mapGet m k' := by
  induction m with
  | nil => simp [mapSet, mapGet, Ne.symm h]
  | cons e r ih =>
    obtain ⟨k₀, x⟩ := e
    by_cases h₀ : k₀ = k
    · subst h₀
      simp [mapSet, mapGet, Ne.symm h]
    · by_cases h₁ : k₀ = k'
      · subst h₁
        simp [mapSet, mapGet, h₀]
      · simp [mapSet, mapGet, h₀, h₁, ih]

theorem mapGet_mapDelete_self {β : Type} (m : List (String × β)) (k : String) :
    mapGet (mapDelete m k) k = none := by
  induction m with
  | nil => simp [mapDelete, mapGet]
  | cons e r ih =>
    obtain ⟨k₀, x⟩ := e
    by_cases h₀ : k₀ = k
    · simpa [mapDelete, List.filter_cons, h₀] using ih
    · simpa [mapDelete, List.filter_cons, h₀, mapGet] using ih

theorem mapGet_mapDelete_ne {β : Type} (m : List (String × β)) (k k' : String)
    (h : k' ≠ k) : mapGet (mapDelete m k) k' = mapGet m k' := by
  induction m with
  | nil => simp [mapDelete, mapGet]
  | cons e r ih =>
    obtain ⟨k₀, x⟩ := e
    by_cases h₀ : k₀ = k
    · subst h₀
      simpa [mapDelete, List.filter_cons, mapGet, Ne.symm h] using ih
    · by_cases h₁ : k₀ = k'
      · subst h₁
        simp [mapDelete, List.filter_cons, h₀, mapGet]
      · simpa [mapDelete, List.filter_cons, h₀, mapGet, h₁] using ih

theorem mapDelete_idem {β : Type} (m : List (String × β)) (k : String) :
    mapDelete (mapDelete m k) k = mapDelete m k := by
  simp [mapDelete, List.filter_filter]

theorem mapGet_eq_none_iff {β : Type} (m : List (String × β)) (k : String) :
    mapGet m k = none ↔ ∀ e ∈ m, e.1 ≠ k := by
  induction m with
  | nil => simp [mapGet]
  | cons e r ih =>
    obtain ⟨k₀, x⟩ := e
    by_cases h₀ : k₀ = k <;> simp [mapGet, h₀, ih]

theorem mapDelete_of_absent {β : Type} (m : List (String × β)) (k : String)
    (h : mapGet m k = none) : mapDelete m k = m := by
  rw [mapGet_eq_none_iff] at h
  unfold mapDelete
  rw [List.filter_eq_self]
  intro e he
  simpa using h e he

theorem mapGet_mem {β : Type} (m : List (String × β)) (k : String) (v : β)
    (h : mapGet m k = some v) : (k, v) ∈ m := by
  induction m with
  | nil => simp [mapGet] at h
  | cons e r ih =>
    obtain ⟨k₀, x⟩ := e
    by_cases h₀ : k₀ = k
    · subst h₀
      simp [mapGet] at h
      simp [h]
    · simp [mapGet, h₀] at h
      exact List.mem_cons_of_mem _ (ih h)

theorem mapGet_of_mem_nodup {β : Type} (m : List (String × β)) (k : String) (v : β)
    (hnd : (m.map Prod.fst).Nodup) (h : (k, v) ∈ m) : mapGet m k = some v := by
  induction m with
  | nil => simp at h
  | cons e r ih =>
    obtain ⟨k₀, x⟩ := e
    rw [List.map_cons, List.nodup_cons] at hnd
    rcases List.mem_cons.mp h with h | h
    · cases h
      simp [mapGet]
    · have hne : k₀ ≠ k := by
        intro heq
        apply hnd.1
        rw [heq]
        exact List.mem_map.mpr ⟨(k, v), h, rfl⟩
      simp [mapGet, hne, ih hnd.2 h]

/-! ## Medium lemmas -/

theorem read_write_self (m : Medium) (p : String) (b : Bytes) :
    (m.write p b).read p = some b := by
  simp [Medium.read, Medium.write, mapGet_mapSet_self]

theorem read_write_ne (m : Medium) (p q : String) (b : Bytes) (h : q ≠ p) :
    (m.write p b).read q = m.read q := by
  simp [Medium.read, Medium.write, mapGet_mapSet_ne _ _ _ _ h]

theorem read_remove_self (m : Medium) (p : String) : (m.remove p).read p = none := by
  simp [Medium.read, Medium.remove, mapGet_mapDelete_self]

theorem read_remove_ne (m : Medium) (p q : String) (h : q ≠ p) :
    (m.remove p).read q = m.read q := by
  simp [Medium.read, Medium.remove, mapGet_mapDelete_ne _ _ _ h]

theorem stat_write_ne (m : Medium) (p q : String) (b : Bytes) (h : q ≠ p) :
    (m.write p b).stat q = m.stat q := by
  simp [Medium.stat, Medium.write, mapGet_mapSet_ne _ _ _ _ h]

theorem stat_write_self (m : Medium) (p : String) (b : Bytes) :
    (m.write p b).stat p = some (Node.file b) := by
  simp [Medium.stat, Medium.write, mapGet_mapSet_self]

theorem stat_remove_ne (m : Medium) (p q : String) (h : q ≠ p) :
    (m.remove p).stat q = m.stat q := by
  simp [Medium.stat, Medium.remove, mapGet_mapDelete_ne _ _ _ h]

theorem isDir_write_ne (m : Medium) (p q : String) (b : Bytes) (h : q ≠ p) :
    (m.write p b).isDir q = m.isDir q := by
  simp [Medium.isDir, stat_write_ne m p q b h]

/-- A regular file at a path is what `os.Stat` finds there. -/
theorem stat_of_read (m : Medium) (p : String) (b : Bytes) (h : m.read p = some b) :
    m.stat p = some (Node.file b) := by
  unfold Medium.read at h
  unfold Medium.stat
  cases hn : mapGet m.nodes p with
  | none => rw [hn] at h; cases h
  | some n =>
    rw [hn] at h
    cases n with
    | file content => simp only [Option.some.injEq] at h; rw [h]
    | dir => cases h

/-- Where no directory stands, `os.Stat` finds a regular file or nothing. -/
theorem stat_of_not_isDir (m : Medium) (p : String) (h : m.isDir p = false) :
    m.stat p = (m.read p).map Node.file := by
  unfold Medium.isDir at h
  simp only [decide_eq_false_iff_not] at h
  unfold Medium.read
  unfold Medium.stat at h ⊢
  cases hn : mapGet m.nodes p with
  | none =>
    rw [hn] at h
    simp only at h ⊢
    by_cases hi : implicitDir p = true
    · simp [hi] at h
    · simp [hi]
  | some n =>
    rw [hn] at h
    cases n with
    | file content => rfl
    | dir => simp at h

theorem read_mkdir (m : Medium) (p q : String) : (m.mkdir p).read q = m.read q := by
  unfold Medium.mkdir
  split_ifs with h
  · rfl
  · have hn : mapGet m.nodes p = none := by
      unfold Medium.stat at h
      cases hn : mapGet m.nodes p with
      | none => rfl
      | some n => simp [hn] at h
    by_cases hq : q = p
    · subst hq
      simp [Medium.read, mapGet_mapSet_self, hn]
    · simp [Medium.read, mapGet_mapSet_ne _ _ _ _ hq]

theorem mkdirAllAux_read (env : Env) (l : List String) :
    ∀ (m : Medium) (q : String), (mkdirAllAux env l m).1.read q = m.read q := by
  induction l with
  | nil => intro m q; rfl
  | cons d l ih =>
    intro m q
    unfold mkdirAllAux
    by_cases h1 : m.isDir d = true
    · simp [h1]
    · by_cases h2 : (m.stat d).isSome = true
      · simp [h1, h2]
      · by_cases h3 : (mkdirAllAux env l m).2 = true
        · simp [h1, h2, h3, ih]
        · by_cases h4 : env.mkdirErr d = true
          · simp [h1, h2, h3, h4, ih]
          · simp [h1, h2, h3, h4, ih, read_mkdir]

/-- The call `os.MkdirAll` leaves every regular file as it is. -/
theorem MkdirAll_read (env : Env) (m : Medium) (d q : String) :
    (MkdirAll env m d).1.read q = m.read q :=
  mkdirAllAux_read env _ m q

theorem osRemove_read_ne (env : Env) (m : Medium) (p q : String) (h : q ≠ p) :
    (osRemove env m p).1.read q = m.read q := by
  unfold osRemove
  by_cases h1 : env.removeErr p = true
  · simp [h1]
  · cases hn : mapGet m.nodes p with
    | none => simp [h1]
    | some n =>
      cases n with
      | file content => simp [h1, read_remove_ne m p q h]
      | dir =>
        by_cases hb : m.hasBelow p = true
        · simp [h1, hb]
        · simp [h1, hb, read_remove_ne m p q h]

theorem osRemove_read_self (env : Env) (m : Medium) (p : String)
    (h : env.removeErr p = false) : (osRemove env m p).1.read p = none := by
  unfold osRemove
  rw [h]
  simp only [Bool.false_eq_true, if_false]
  cases hn : mapGet m.nodes p with
  | none => simp [Medium.read, hn]
  | some n =>
    cases n with
    | file content => exact read_remove_self m p
    | dir =>
      by_cases hb : m.hasBelow p = true
      · simp [hb, Medium.read, hn]
      · simp [hb, read_remove_self m p]

theorem osRemove_read_mono (env : Env) (m : Medium) (p q : String) :
    (osRemove env m p).1.read q = none ∨ (osRemove env m p).1.read q = m.read q := by
  by_cases h : q = p
  · subst h
    by_cases h1 : env.removeErr q = true
    · right
      simp [osRemove, h1]
    · left
      exact osRemove_read_self env m q (by simpa using h1)
  · exact Or.inr (osRemove_read_ne env m p q h)

/-- The call `os.Remove` on a regular file, the environment not failing it:
the file is removed and no error is returned. -/
theorem osRemove_file (env : Env) (m : Medium) (p : String) (b : Bytes)
    (hr : m.read p = some b) (h : env.removeErr p = false) :
    osRemove env m p = (m.remove p, false) := by
  unfold osRemove
  rw [h]
  simp only [Bool.false_eq_true, if_false]
  unfold Medium.read at hr
  cases hn : mapGet m.nodes p with
  | none => rw [hn] at hr; cases hr
  | some n =>
    rw [hn] at hr
    cases n with
    | file content => rfl
    | dir => cases hr

theorem osRemove_idem (env : Env) (m : Medium) (p : String) :
    (osRemove env (osRemove env m p).1 p).1 = (osRemove env m p).1 := by
  unfold osRemove
  cases hr : env.removeErr p
  · simp only [Bool.false_eq_true, if_false]
    cases hn : mapGet m.nodes p with
    | none => simp [hn]
    | some n =>
      cases n with
      | file content => simp [Medium.remove, mapGet_mapDelete_self]
      | dir =>
        simp only
        by_cases hb : m.hasBelow p = true
        · simp [hb, hn]
        · simp [hb, Medium.remove, mapGet_mapDelete_self]
  · simp

theorem append_tmp_ne (p : String) : p ++ ".tmp" ≠ p := by
  intro h
  have := congrArg String.length h
  simp [String.length_append] at this
  exact absurd this (by decide)

/-! ## The write path of `save` -/

theorem saveWrite_ok (env : Env) (now : Int) (w : World) (key : String) (buf : Bytes)
    (hwrite : writePathOk env w.fs (cachePath w.c key) = true) :
    saveWrite env now w key buf = committed env now w key buf := by
  simp only [writePathOk, Bool.and_eq_true, Bool.not_eq_true',
    Option.isNone_iff_eq_none] at hwrite
  obtain ⟨⟨⟨⟨hc, hw⟩, hcl⟩, hrn⟩, hd⟩ := hwrite
  have hd2 : (((MkdirAll env w.fs (filepathDir (cachePath w.c key))).1.write
      (cachePath w.c key ++ ".tmp") []).write (cachePath w.c key ++ ".tmp") buf).isDir
      (cachePath w.c key) = false := by
    rw [isDir_write_ne _ _ _ _ (append_tmp_ne _).symm,
      isDir_write_ne _ _ _ _ (append_tmp_ne _).symm]
    exact hd
  unfold saveWrite committed createDir
  simp only [hc, hw, hcl, renameFails, hrn, hd2]
  simp

theorem save_in_budget (env : Env) (now : Int) (w : World) (key : String) (buf : Bytes)
    (hdir : w.c.dir ≠ "")
    (hbudget : wrap64 (w.c.used + (buf.length : Int)) < w.c.capacity) :
    save env now w key buf = saveWrite env now w key buf := by
  have hnb : ¬ w.c.capacity ≤ wrap64 (w.c.used + (buf.length : Int)) := not_le.mpr hbudget
  simp [save, afterReclaim, hdir, hnb]

theorem committed_dir (env : Env) (now : Int) (w : World) (key : String) (buf : Bytes) :
    (committed env now w key buf).c.dir = w.c.dir := rfl

theorem committed_pending (env : Env) (now : Int) (w : World) (key : String)
    (buf : Bytes) : (committed env now w key buf).pending = w.pending := rfl

theorem committed_read_path (env : Env) (now : Int) (w : World) (key : String)
    (buf : Bytes) :
    (committed env now w key buf).fs.read (cachePath w.c key) = some buf := by
  simp [committed, read_write_self]

theorem committed_get_key (env : Env) (now : Int) (w : World) (key : String)
    (buf : Bytes) :
    mapGet (committed env now w key buf).c.keys key =
      some { size := (buf.length : Int), expTime := timeAdd now w.c.expire } := by
  simp [committed, mapGet_mapSet_self]

theorem cachePath_congr (c d : diskCache) (h : c.dir = d.dir) (key : String) :
    cachePath c key = cachePath d key := by
  simp [cachePath, h]

/-- What `load` hands out, in terms of the table, the clock, the medium and the
environment. -/
theorem load_eq (env : Env) (now : Int) (w : World) (key : String) :
    (load env now w key).1 =
      if w.c.dir = "" then none
      else if exist now w.c key = false then none
      else if env.readOk (cachePath w.c key) = false then none
      else w.fs.stat (cachePath w.c key) := by
  unfold load Env.readOk
  by_cases hd : w.c.dir = ""
  · simp [hd]
  · cases he : exist now w.c key
    · simp [hd, he]
    · cases hr : w.fs.stat (cachePath w.c key) with
      | none => simp [hd, he, hr]
      | some content =>
        cases hs : env.statErr (cachePath w.c key) <;>
          cases ho : env.openErr (cachePath w.c key) <;> simp [hd, he, hr, hs, ho]

/-- A `load` of a live entry whose file is on the medium, the read path not
failing, hands out that file. -/
theorem load_of_live (env : Env) (now : Int) (w : World) (key : String) (buf : Bytes)
    (item : cacheItem)
    (hdir : w.c.dir ≠ "")
    (hitem : mapGet w.c.keys key = some item)
    (hlive : now < item.expTime)
    (hfile : w.fs.read (cachePath w.c key) = some buf)
    (hread : env.readOk (cachePath w.c key) = true) :
    (load env now w key).1 = some (Node.file buf) := by
  rw [load_eq]
  have hexp : ¬ timeSub item.expTime now ≤ 0 := by
    rw [timeSub_nonpos_iff]
    omega
  have hex : exist now w.c key = true := by
    simp [exist, hitem, hexp]
  simp [hdir, hex, hread, stat_of_read _ _ _ hfile]

/-! ## Round trip -/

theorem load_after_save (env : Env) (now : Int) (w : World) (key : String)
    (buf : Bytes)
    (hdir : w.c.dir ≠ "")
    (hbudget : wrap64 (w.c.used + (buf.length : Int)) < w.c.capacity)
    (httl : 0 < w.c.expire)
    (hwrite : writePathOk env w.fs (cachePath w.c key) = true)
    (hread : env.readOk (cachePath w.c key) = true) :
    (load env now (save env now w key buf) key).1 = some (Node.file buf) := by
  rw [save_in_budget env now w key buf hdir hbudget, saveWrite_ok env now w key buf hwrite]
  have hp : cachePath (committed env now w key buf).c key = cachePath w.c key :=
    cachePath_congr _ _ (committed_dir env now w key buf) key
  refine load_of_live env now _ key buf _ ?_ (committed_get_key env now w key buf) ?_ ?_ ?_
  · exact hdir
  · show now < timeAdd now w.c.expire
    unfold timeAdd
    omega
  · rw [hp]
    exact committed_read_path env now w key buf
  · rw [hp]
    exact hread

/-- Claim C1, as the code has it: on a disk cache with a non-empty root and a
positive TTL, a payload within budget that is saved and loaded at the same
instant, with no failure on the write path and the read path, comes back
byte for byte: the lookup finds the key and hands out a regular file whose
content is the payload. -/
theorem save_then_load_roundtrip (env : Env) (now : Int) (w : World) (key : String)
    (buf : Bytes)
    (hdir : w.c.dir ≠ "")
    (hbudget : wrap64 (w.c.used + (buf.length : Int)) < w.c.capacity)
    (httl : 0 < w.c.expire)
    (hwrite : writePathOk env w.fs (cachePath w.c key) = true)
    (hread : env.readOk (cachePath w.c key) = true) :
    (load env now (save env now w key buf) key).1.isSome = true ∧
    (load env now (save env now w key buf) key).1 = some (Node.file buf) := by
  have h := load_after_save env now w key buf hdir hbudget httl hwrite hread
  exact ⟨by rw [h]; rfl, h⟩

set_option maxRecDepth 1000000 in
/-- Witness of `save_then_load_roundtrip` on the sample cache. -/
theorem save_then_load_roundtrip_witness :
    emptyWorld.c.dir ≠ "" ∧
    (load (Env.reliable []) 0 (save (Env.reliable []) 0 emptyWorld "k" [1, 2]) "k").1
      = some (Node.file [1, 2]) :=
  ⟨by decide, (save_then_load_roundtrip (Env.reliable []) 0 emptyWorld "k" [1, 2]
    (by decide) (by decide) (by decide) (by decide) (by decide)).2⟩

set_option maxRecDepth 1000000 in
/-- Claim C1 as stated fails: with a TTL of zero the entry written by `save`
is already expired for a `load` at the same instant, though the root is not
empty, the payload is within budget and no filesystem call fails. -/
theorem roundtrip_fails_with_zero_ttl :
    zeroTtlWorld.c.dir ≠ "" ∧
    zeroTtlWorld.c.used + (([1, 2] : Bytes).length : Int) < zeroTtlWorld.c.capacity ∧
    writePathOk (Env.reliable []) zeroTtlWorld.fs (cachePath zeroTtlWorld.c "k") = true ∧
    (Env.reliable []).readOk (cachePath zeroTtlWorld.c "k") = true ∧
    (save (Env.reliable []) 0 zeroTtlWorld "k" [1, 2]).fs.read "/c/datacache/k"
      = some [1, 2] ∧
    (load (Env.reliable []) 0 (save (Env.reliable []) 0 zeroTtlWorld "k" [1, 2]) "k").1
      = none := by
  decide

/-! ## Lookup -/

theorem exist_iff (now : Int) (c : diskCache) (key : String) :
    exist now c key = true ↔ ∃ item, mapGet c.keys key = some item ∧ now < item.expTime := by
  unfold exist
  cases h : mapGet c.keys key with
  | none => simp
  | some item =>
    by_cases hx : timeSub item.expTime now ≤ 0
    · have := (timeSub_nonpos_iff _ _).mp hx
      simp [hx]
      omega
    · have : ¬ item.expTime ≤ now := fun hle => hx ((timeSub_nonpos_iff _ _).mpr hle)
      simp [hx]
      omega

theorem load_state (env : Env) (now : Int) (w : World) (key : String) :
    (load env now w key).2 = w := by
  unfold load
  by_cases hd : w.c.dir = ""
  · simp [hd]
  · cases he : exist now w.c key
    · simp [hd, he]
    · cases hr : w.fs.stat (cachePath w.c key) with
      | none => simp [hd, he, hr]
      | some content =>
        cases hs : env.statErr (cachePath w.c key) <;>
          cases ho : env.openErr (cachePath w.c key) <;> simp [hd, he, hr, hs, ho]

theorem updateCapacity_fields (env : Env) (c : diskCache) :
    (updateCapacity env c).1.dir = c.dir ∧ (updateCapacity env c).1.expire = c.expire ∧
      (updateCapacity env c).1.keys = c.keys := by
  unfold updateCapacity
  cases env.dfOutput with
  | none => simp
  | some output =>
    cases hs : scanReport (output.length + 1) output <;> simp [hs]

theorem NewDiskCache_some (env : Env) (config : Option DiskConfig) (c : diskCache)
    (h : NewDiskCache env config = some c) :
    ∃ cfg, config = some cfg ∧ cfg.Dir ≠ "" ∧ cfg.Dir ≠ "/" ∧
      c.dir = cfg.Dir ∧ c.expire = cfg.Expire ∧ c.keys = [] := by
  unfold NewDiskCache at h
  cases config with
  | none => simp at h
  | some cfg =>
    by_cases hg : (cfg.Dir = "" || cfg.Dir = "/") = true
    · simp [hg] at h
    · simp only [hg] at h
      simp only [Bool.false_eq_true, if_false, Option.some.injEq] at h
      have hf := updateCapacity_fields env
        { dir := cfg.Dir, capacity := 0, used := 0, expire := cfg.Expire, keys := [] }
      simp only [Bool.or_eq_true, decide_eq_true_eq, not_or] at hg
      refine ⟨cfg, rfl, hg.1, hg.2, ?_, ?_, ?_⟩
      · rw [← h]; exact hf.1
      · rw [← h]; exact hf.2.1
      · rw [← h]; exact hf.2.2

/-- Claim C2, as the code has it: on a cache whose root is not empty, as it is
on every cache `NewDiskCache` returns, and where no directory stands at
`cachePath`, `load` reports a hit exactly when the key has an entry that
expires later than the current instant and the file at `cachePath` exists and
is opened without failure; the stream handed out is then that file. In every
other case the result is `(nil, false)`. Whatever stands at the path, the call
leaves the table, the counters, the medium and the removals under way as they
were, and on a tier just built every key is a miss. -/
theorem load_found_iff (env : Env) (now : Int) (w : World) (key : String)
    (hdir : w.c.dir ≠ "") :
    (w.fs.isDir (cachePath w.c key) = false →
      ((load env now w key).1.isSome = true ↔
        (∃ item, mapGet w.c.keys key = some item ∧ now < item.expTime) ∧
          (w.fs.read (cachePath w.c key)).isSome = true ∧
          env.readOk (cachePath w.c key) = true)) ∧
    (w.fs.isDir (cachePath w.c key) = false →
      ∀ node, (load env now w key).1 = some node →
        ∃ content, node = Node.file content ∧
          w.fs.read (cachePath w.c key) = some content) ∧
    (load env now w key).2 = w ∧
    (∀ (env₀ : Env) (config : Option DiskConfig) (fresh : diskCache) (fs : Medium)
      (pending : List String),
      NewDiskCache env₀ config = some fresh →
        (load env now { c := fresh, fs := fs, pending := pending } key).1 = none) := by
  have hnode : ∀ node, (load env now w key).1 = some node →
      w.fs.stat (cachePath w.c key) = some node := by
    intro node h
    rw [load_eq] at h
    cases he : exist now w.c key
    · simp [hdir, he] at h
    · cases hr : env.readOk (cachePath w.c key)
      · simp [hdir, he, hr] at h
      · simpa [hdir, he, hr] using h
  have hiff : (load env now w key).1.isSome = true ↔
      (∃ item, mapGet w.c.keys key = some item ∧ now < item.expTime) ∧
        (w.fs.stat (cachePath w.c key)).isSome = true ∧
        env.readOk (cachePath w.c key) = true := by
    rw [load_eq, ← exist_iff]
    cases he : exist now w.c key
    · simp [hdir]
    · cases hr : env.readOk (cachePath w.c key) <;> simp [hdir]
  refine ⟨?_, ?_, load_state env now w key, ?_⟩
  · intro hnd
    rw [hiff, stat_of_not_isDir _ _ hnd]
    simp
  · intro hnd node hl
    have h1 := hnode node hl
    rw [stat_of_not_isDir _ _ hnd] at h1
    cases hr : w.fs.read (cachePath w.c key) with
    | none => rw [hr] at h1; cases h1
    | some content =>
      rw [hr] at h1
      exact ⟨content, (Option.some.inj h1).symm, rfl⟩
  · intro env₀ config fresh fs pending h
    obtain ⟨cfg, -, -, -, -, -, hk⟩ := NewDiskCache_some env₀ config fresh h
    rw [load_eq]
    have : exist now fresh key = false := by simp [exist, hk, mapGet]
    simp [this]

set_option maxRecDepth 1000000 in
/-- Witness of `load_found_iff`: a hit on a live entry, and a miss on a tier
just built. -/
theorem load_found_iff_witness :
    liveWorld.c.dir ≠ "" ∧
    liveWorld.fs.isDir (cachePath liveWorld.c "k") = false ∧
    (load (Env.reliable []) 0 liveWorld "k").1.isSome = true ∧
    (load (Env.reliable []) 0 liveWorld "k").1 = some (Node.file [7]) ∧
    (load (Env.reliable []) 0
      { c := { dir := "/c", capacity := 0, used := 0, expire := 10, keys := [] },
        fs := liveWorld.fs, pending := [] } "k").1 = none :=
  ⟨by decide, by decide,
    ((load_found_iff (Env.reliable []) 0 liveWorld "k" (by decide)).1 (by decide)).mpr
      ⟨⟨⟨1, 5⟩, by decide, by decide⟩, by decide, by decide⟩,
    by decide,
    (load_found_iff (Env.reliable []) 0 liveWorld "k" (by decide)).2.2.2 (Env.reliable [])
      (some { Dir := "/c", Mode := 0, Expire := 10 }) _ liveWorld.fs [] (by decide)⟩

set_option maxRecDepth 1000000 in
/-- Claim C2 as stated fails: after `save("a.tmp", _)`, `save("a", _)` and
`save("a.tmp/x", _)` on a cache just built, every call going through, the key
`a.tmp` has a live entry and its file is gone from its cache path (the second
save used it as its temporary file and renamed it away, and the third made a
directory there), yet `load` reports a hit: `os.Stat` and `os.Open` go
through on the directory, and the stream handed out is open on it. -/
theorem load_hits_on_directory :
    mapGet dirAtPathWorld.c.keys "a.tmp" = some ⟨1, 10⟩ ∧ (0 : Int) < 10 ∧
    cachePath dirAtPathWorld.c "a.tmp" = "/c/datacache/a.tmp" ∧
    dirAtPathWorld.fs.read "/c/datacache/a.tmp" = none ∧
    dirAtPathWorld.fs.isDir "/c/datacache/a.tmp" = true ∧
    (load (Env.reliable []) 0 dirAtPathWorld "a.tmp").1.isSome = true ∧
    (load (Env.reliable []) 0 dirAtPathWorld "a.tmp").1 = some Node.dir := by
  decide

/-! ## Paths are never empty -/

theorem cleanStep_nonempty (rooted : Bool) (stack : List (List Char)) (x : List Char)
    (h : ∀ e ∈ stack, e ≠ []) : ∀ e ∈ cleanStep rooted stack x, e ≠ [] := by
  unfold cleanStep
  by_cases h1 : x = []
  · rw [if_pos h1]; exact h
  · rw [if_neg h1]
    by_cases h2 : x = ['.']
    · rw [if_pos h2]; exact h
    · rw [if_neg h2]
      by_cases h3 : x = ['.', '.']
      · rw [if_pos h3]
        cases stack with
        | nil =>
          cases rooted
          · intro e he
            simp at he
            rw [he]; exact h1
          · simp
        | cons top rest =>
          by_cases h4 : top = ['.', '.']
          · intro e he
            simp only [if_pos h4] at he
            rcases List.mem_cons.mp he with he | he
            · rw [he]; exact h1
            · exact h e he
          · intro e he
            simp only [if_neg h4] at he
            exact h e (List.mem_cons_of_mem _ he)
      · rw [if_neg h3]
        intro e he
        rcases List.mem_cons.mp he with he | he
        · rw [he]; exact h1
        · exact h e he

theorem cleanFold_nonempty (rooted : Bool) (xs : List (List Char)) :
    ∀ stack : List (List Char), (∀ e ∈ stack, e ≠ []) →
      ∀ e ∈ xs.foldl (cleanStep rooted) stack, e ≠ [] := by
  induction xs with
  | nil => intro stack h; simpa using h
  | cons x xs ih =>
    intro stack h
    simp only [List.foldl_cons]
    exact ih _ (cleanStep_nonempty rooted stack x h)

theorem joinSlash_ne_nil (l : List (List Char)) (hl : l ≠ []) (h : ∀ e ∈ l, e ≠ []) :
    joinSlash l ≠ [] := by
  match l, hl, h with
  | [e], _, h => simpa [joinSlash] using h e (by simp)
  | e :: f :: es, _, _ => simp [joinSlash]

theorem cleanChars_ne_nil (p : List Char) : cleanChars p ≠ [] := by
  unfold cleanChars
  cases p with
  | nil => simp
  | cons c cs =>
    simp only
    split_ifs with h1 h2
    · simp
    · simp
    · apply joinSlash_ne_nil _ h2
      intro e he
      rw [List.mem_reverse] at he
      exact cleanFold_nonempty _ _ [] (by simp) e he

theorem Clean_ne_empty (p : String) : Clean p ≠ "" := by
  unfold Clean
  intro h
  have := congrArg String.data h
  exact cleanChars_ne_nil p.data (by simpa using this)

theorem cachePath_ne_empty (c : diskCache) (key : String) : cachePath c key ≠ "" := by
  unfold cachePath filepathJoin
  by_cases hd : c.dir = ""
  · rw [if_pos hd]
    unfold filepathJoin
    rw [if_neg (by decide : ¬ CacheDir = "")]
    exact Clean_ne_empty _
  · rw [if_neg hd]
    exact Clean_ne_empty _

/-! ## `delete` -/

theorem World_ext (x y : World) (hc : x.c = y.c) (hfs : x.fs = y.fs)
    (hp : x.pending = y.pending) : x = y := by
  cases x
  cases y
  simp only at hc hfs hp
  rw [hc, hfs, hp]

theorem delete_c (w : World) (key : String) :
    (delete w key).c = { w.c with keys := mapDelete w.c.keys key } := by
  unfold delete
  cases h : mapGet w.c.keys key with
  | none => simp [mapDelete_of_absent _ _ h]
  | some item => simp

/-- The call `delete` returns before its removal has touched the medium. -/
theorem delete_fs (w : World) (key : String) : (delete w key).fs = w.fs := rfl

/-- The call `delete` sets off one removal, of the cache path of the key. -/
theorem delete_pending (w : World) (key : String) :
    (delete w key).pending = w.pending ++ [cachePath w.c key] := by
  unfold delete
  simp [cachePath_ne_empty]

theorem delete_dir (w : World) (key : String) : (delete w key).c.dir = w.c.dir := by
  rw [delete_c]

theorem delete_expire (w : World) (key : String) :
    (delete w key).c.expire = w.c.expire := by
  rw [delete_c]

theorem delete_keys_self (w : World) (key : String) :
    mapGet (delete w key).c.keys key = none := by
  rw [delete_c]
  exact mapGet_mapDelete_self _ _

theorem delete_keys_ne (w : World) (key k : String) (h : k ≠ key) :
    mapGet (delete w key).c.keys k = mapGet w.c.keys k := by
  rw [delete_c]
  exact mapGet_mapDelete_ne _ _ _ h

theorem delete_keys_mono (w : World) (key k : String) :
    mapGet (delete w key).c.keys k = none ∨
      mapGet (delete w key).c.keys k = mapGet w.c.keys k := by
  by_cases h : k = key
  · subst h
    exact Or.inl (delete_keys_self w k)
  · exact Or.inr (delete_keys_ne w key k h)

/-! ## Removals under way -/

theorem landOne_c (env : Env) (w : World) (i : Nat) : (landOne env w i).c = w.c := by
  unfold landOne
  cases w.pending.get? i <;> rfl

theorem landOne_pending (env : Env) (w : World) (i : Nat) :
    (landOne env w i).pending = w.pending.eraseIdx i := by
  unfold landOne
  cases h : w.pending.get? i with
  | none =>
    have hi : w.pending.length ≤ i := by
      by_contra hlt
      rw [List.get?_eq_get (not_le.mp hlt)] at h
      cases h
    exact (List.eraseIdx_of_length_le hi).symm
  | some p => rfl

theorem landOne_pending_sub (env : Env) (w : World) (i : Nat) (p : String)
    (h : p ∈ (landOne env w i).pending) : p ∈ w.pending := by
  rw [landOne_pending] at h
  exact (List.eraseIdx_sublist w.pending i).subset h

theorem landOne_read_mono (env : Env) (w : World) (i : Nat) (q : String) :
    (landOne env w i).fs.read q = none ∨ (landOne env w i).fs.read q = w.fs.read q := by
  unfold landOne
  cases h : w.pending.get? i with
  | none => exact Or.inr rfl
  | some p => exact osRemove_read_mono env w.fs p q

theorem landOne_read_keep (env : Env) (w : World) (i : Nat) (q : String)
    (hq : q ∉ w.pending) : (landOne env w i).fs.read q = w.fs.read q := by
  unfold landOne
  cases h : w.pending.get? i with
  | none => rfl
  | some p =>
    have hp : p ∈ w.pending := List.get?_mem h
    exact osRemove_read_ne env w.fs p q (fun hqp => hq (hqp ▸ hp))

theorem landOne_gone (env : Env) (w : World) (i : Nat) (p : String)
    (hin : p ∈ w.pending) (hout : p ∉ (landOne env w i).pending)
    (hrm : env.removeErr p = false) : (landOne env w i).fs.read p = none := by
  rw [landOne_pending] at hout
  unfold landOne
  cases h : w.pending.get? i with
  | none =>
    exfalso
    have hi : w.pending.length ≤ i := by
      by_contra hlt
      rw [List.get?_eq_get (not_le.mp hlt)] at h
      cases h
    rw [List.eraseIdx_of_length_le hi] at hout
    exact hout hin
  | some q =>
    by_cases hqp : q = p
    · subst hqp
      exact osRemove_read_self env w.fs q hrm
    · exfalso
      apply hout
      obtain ⟨n, hn, hget⟩ := List.getElem_of_mem hin
      rw [List.mem_eraseIdx_iff_getElem]
      refine ⟨n, hn, ?_, hget⟩
      intro hni
      subst hni
      rw [List.get?_eq_getElem?, List.getElem?_eq_getElem hn, hget] at h
      exact hqp (Option.some.inj h).symm

theorem Lands_c (env : Env) (w w' : World) (h : Lands env w w') : w'.c = w.c := by
  induction h with
  | refl => rfl
  | step w' i _ ih => rw [landOne_c, ih]

theorem Lands_pending_sub (env : Env) (w w' : World) (h : Lands env w w') (p : String)
    (hp : p ∈ w'.pending) : p ∈ w.pending := by
  induction h with
  | refl => exact hp
  | step w' i _ ih => exact ih (landOne_pending_sub env w' i p hp)

theorem Lands_read_mono (env : Env) (w w' : World) (h : Lands env w w') (q : String) :
    w'.fs.read q = none ∨ w'.fs.read q = w.fs.read q := by
  induction h with
  | refl => exact Or.inr rfl
  | step w' i _ ih =>
    rcases landOne_read_mono env w' i q with h1 | h1
    · exact Or.inl h1
    · rw [h1]; exact ih

/-- A file that no removal under way aims at is left alone, whichever of them
land. -/
theorem Lands_read_keep (env : Env) (w w' : World) (h : Lands env w w') (q : String)
    (hq : q ∉ w.pending) : w'.fs.read q = w.fs.read q := by
  induction h with
  | refl => rfl
  | step w' i hl ih =>
    rw [landOne_read_keep env w' i q (fun hin => hq (Lands_pending_sub env w w' hl q hin)), ih]

/-- Once the removal of a path has landed without failing, no file stands at
the path. -/
theorem Lands_gone (env : Env) (w w' : World) (h : Lands env w w') (p : String)
    (hin : p ∈ w.pending ∨ w.fs.read p = none) (hout : p ∉ w'.pending)
    (hrm : env.removeErr p = false) : w'.fs.read p = none := by
  have inv : ∀ w', Lands env w w' → p ∈ w'.pending ∨ w'.fs.read p = none := by
    intro w' h
    induction h with
    | refl => exact hin
    | step w' i _ ih =>
      rcases ih with h1 | h1
      · by_cases h2 : p ∈ (landOne env w' i).pending
        · exact Or.inl h2
        · exact Or.inr (landOne_gone env w' i p h1 h2 hrm)
      · right
        rcases landOne_read_mono env w' i p with h2 | h2
        · exact h2
        · rw [h2]; exact h1
  rcases inv w' h with h1 | h1
  · exact absurd h1 hout
  · exact h1

theorem Lands_trans (env : Env) (w₁ w₂ w₃ : World) (h₁ : Lands env w₁ w₂)
    (h₂ : Lands env w₂ w₃) : Lands env w₁ w₃ := by
  induction h₂ with
  | refl => exact h₁
  | step w' i _ ih => exact Lands.step w₁ w' i ih

theorem landAll_cons (env : Env) (w : World) (p : String) (ps : List String)
    (h : w.pending = p :: ps) : landAll env w = landAll env (landOne env w 0) := by
  unfold landAll landOne
  simp [h]

theorem landAll_aux (env : Env) (w₀ : World) :
    ∀ (n : Nat) (w : World), w.pending.length = n → Lands env w₀ w →
      Lands env w₀ (landAll env w) := by
  intro n
  induction n with
  | zero =>
    intro w hn hl
    have hp : w.pending = [] := List.length_eq_zero.mp hn
    have : landAll env w = w := by
      apply World_ext
      · rfl
      · simp [landAll, hp]
      · simp [landAll, hp]
    rw [this]
    exact hl
  | succ n ih =>
    intro w hn hl
    cases hp : w.pending with
    | nil => rw [hp] at hn; cases hn
    | cons p ps =>
      rw [landAll_cons env w p ps hp]
      apply ih
      · rw [landOne_pending, hp]
        rw [hp] at hn
        simpa using hn
      · exact Lands.step w₀ w 0 hl

/-- Letting every removal under way land, in the order they were set off, is
one of the ways they can land. -/
theorem Lands_landAll (env : Env) (w : World) : Lands env w (landAll env w) :=
  landAll_aux env w _ w rfl (Lands.refl w)

theorem landAll_pending (env : Env) (w : World) : (landAll env w).pending = [] := rfl

/-! ## First phase of `clean` -/

theorem expireStep_eq (now : Int) (w : World) (e : String × cacheItem) :
    expireStep now w e = if e.2.expTime ≤ now then delete w e.1 else w := by
  unfold expireStep
  by_cases h : e.2.expTime ≤ now
  · rw [if_pos h, if_pos ((timeSub_nonneg_iff _ _).mpr h)]
  · rw [if_neg h, if_neg (fun hh => h ((timeSub_nonneg_iff _ _).mp hh))]

theorem expireStep_dir (now : Int) (w : World) (e : String × cacheItem) :
    (expireStep now w e).c.dir = w.c.dir := by
  rw [expireStep_eq]
  split_ifs
  · exact delete_dir w e.1
  · rfl

theorem expireStep_expire (now : Int) (w : World) (e : String × cacheItem) :
    (expireStep now w e).c.expire = w.c.expire := by
  rw [expireStep_eq]
  split_ifs
  · exact delete_expire w e.1
  · rfl

theorem expireStep_fs (now : Int) (w : World) (e : String × cacheItem) :
    (expireStep now w e).fs = w.fs := by
  rw [expireStep_eq]
  split_ifs <;> rfl

theorem expireStep_keys_mono (now : Int) (w : World) (e : String × cacheItem)
    (k : String) :
    mapGet (expireStep now w e).c.keys k = none ∨
      mapGet (expireStep now w e).c.keys k = mapGet w.c.keys k := by
  rw [expireStep_eq]
  split_ifs
  · exact delete_keys_mono w e.1 k
  · exact Or.inr rfl

theorem expireFold_dir (now : Int) (l : List (String × cacheItem)) :
    ∀ w : World, (l.foldl (expireStep now) w).c.dir = w.c.dir := by
  induction l with
  | nil => intro w; rfl
  | cons e l ih =>
    intro w
    rw [List.foldl_cons, ih, expireStep_dir]

theorem expireFold_expire (now : Int) (l : List (String × cacheItem)) :
    ∀ w : World, (l.foldl (expireStep now) w).c.expire = w.c.expire := by
  induction l with
  | nil => intro w; rfl
  | cons e l ih =>
    intro w
    rw [List.foldl_cons, ih, expireStep_expire]

/-- The first phase of `clean` returns before any of the removals it sets off
has touched the medium. -/
theorem expireFold_fs (now : Int) (l : List (String × cacheItem)) :
    ∀ w : World, (l.foldl (expireStep now) w).fs = w.fs := by
  induction l with
  | nil => intro w; rfl
  | cons e l ih =>
    intro w
    rw [List.foldl_cons, ih, expireStep_fs]

theorem expireFold_keys_mono (now : Int) (l : List (String × cacheItem)) (k : String) :
    ∀ w : World, mapGet (l.foldl (expireStep now) w).c.keys k = none ∨
      mapGet (l.foldl (expireStep now) w).c.keys k = mapGet w.c.keys k := by
  induction l with
  | nil => intro w; exact Or.inr rfl
  | cons e l ih =>
    intro w
    rw [List.foldl_cons]
    rcases ih (expireStep now w e) with h | h
    · exact Or.inl h
    · rw [h]; exact expireStep_keys_mono now w e k

theorem expireFold_keys_keep (now : Int) (l : List (String × cacheItem))
    (k : String) (hk : ∀ e ∈ l, e.2.expTime ≤ now → e.1 ≠ k) :
    ∀ w : World, mapGet (l.foldl (expireStep now) w).c.keys k = mapGet w.c.keys k := by
  induction l with
  | nil => intro w; rfl
  | cons e l ih =>
    intro w
    rw [List.foldl_cons, ih (fun e' he' => hk e' (List.mem_cons_of_mem _ he')),
      expireStep_eq]
    split_ifs with hx
    · exact delete_keys_ne w e.1 k (Ne.symm (hk e (List.mem_cons_self _ _) hx))
    · rfl

theorem expireFold_keys_gone (now : Int) (l : List (String × cacheItem))
    (k : String) (item : cacheItem) (hmem : (k, item) ∈ l) (hexp : item.expTime ≤ now) :
    ∀ w : World, mapGet (l.foldl (expireStep now) w).c.keys k = none := by
  induction l with
  | nil => simp at hmem
  | cons e l ih =>
    intro w
    rw [List.foldl_cons]
    rcases List.mem_cons.mp hmem with h | h
    · rcases expireFold_keys_mono now l k (expireStep now w e) with h' | h'
      · exact h'
      · rw [h', expireStep_eq, ← h]
        simp only [hexp, if_true]
        exact delete_keys_self w k
    · exact ih h _

/-- The removals under way after the first phase of `clean`: those there
before, then one for each expired entry, at its cache path. -/
theorem expireFold_pending (now : Int) (l : List (String × cacheItem)) :
    ∀ w : World, (l.foldl (expireStep now) w).pending =
      w.pending ++ (l.filter (fun e => decide (e.2.expTime ≤ now))).map
        (fun e => cachePath w.c e.1) := by
  induction l with
  | nil => intro w; simp
  | cons e l ih =>
    intro w
    rw [List.foldl_cons, ih]
    have hc : ∀ k, cachePath (expireStep now w e).c k = cachePath w.c k :=
      fun k => cachePath_congr _ _ (expireStep_dir now w e) k
    simp only [hc]
    rw [expireStep_eq]
    by_cases hx : e.2.expTime ≤ now
    · simp [hx, delete_pending]
    · simp [hx]

/-! ### The order of the loop over the map does not matter -/

theorem mapDelete_comm (m : List (String × cacheItem)) (p q : String) :
    mapDelete (mapDelete m p) q = mapDelete (mapDelete m q) p := by
  simp only [mapDelete, List.filter_filter]
  congr 1
  funext e
  exact Bool.and_comm _ _

theorem expireFold_c (now : Int) (l : List (String × cacheItem)) :
    ∀ w : World, (l.foldl (expireStep now) w).c =
      l.foldl (fun (c : diskCache) (e : String × cacheItem) =>
        if e.2.expTime ≤ now then { c with keys := mapDelete c.keys e.1 } else c) w.c := by
  induction l with
  | nil => intro w; rfl
  | cons e l ih =>
    intro w
    rw [List.foldl_cons, List.foldl_cons, ih, expireStep_eq]
    by_cases hx : e.2.expTime ≤ now
    · simp only [hx, if_true, delete_c]
    · simp only [hx, if_false]

/-- Go visits the entries of a map in no fixed order. The table and the medium
after the first phase of `clean` do not depend on the order, and the removals
set off are the same up to their order. -/
theorem expireFold_perm (now : Int) (l₁ l₂ : List (String × cacheItem))
    (h : l₁.Perm l₂) (w : World) :
    (l₁.foldl (expireStep now) w).c = (l₂.foldl (expireStep now) w).c ∧
    (l₁.foldl (expireStep now) w).fs = (l₂.foldl (expireStep now) w).fs ∧
    (l₁.foldl (expireStep now) w).pending.Perm (l₂.foldl (expireStep now) w).pending := by
  refine ⟨?_, ?_, ?_⟩
  · rw [expireFold_c, expireFold_c]
    apply h.foldl_eq'
    intro x _ y _ z
    by_cases hx : x.2.expTime ≤ now <;> by_cases hy : y.2.expTime ≤ now <;>
      simp [hx, hy, mapDelete_comm]
  · rw [expireFold_fs, expireFold_fs]
  · rw [expireFold_pending, expireFold_pending]
    exact List.Perm.append_left _ ((h.filter _).map _)

/-! ## Second phase of `clean` -/

theorem sweepStep_read_mono (env : Env) (c : diskCache) (acc : Medium × Bool)
    (path q : String) :
    (sweepStep env c acc path).1.read q = none ∨
      (sweepStep env c acc path).1.read q = acc.1.read q := by
  unfold sweepStep
  split_ifs
  · exact Or.inr rfl
  · exact Or.inr rfl
  · exact Or.inr rfl
  · exact osRemove_read_mono env acc.1 path q

theorem sweepFold_read_mono (env : Env) (c : diskCache) (l : List String) (q : String) :
    ∀ acc : Medium × Bool, (l.foldl (sweepStep env c) acc).1.read q = none ∨
      (l.foldl (sweepStep env c) acc).1.read q = acc.1.read q := by
  induction l with
  | nil => intro acc; exact Or.inr rfl
  | cons p l ih =>
    intro acc
    rw [List.foldl_cons]
    rcases ih (sweepStep env c acc p) with h | h
    · exact Or.inl h
    · rw [h]; exact sweepStep_read_mono env c acc p q

/-! ## `clean` as a whole -/

theorem clean_dir (env : Env) (now : Int) (w : World) : (clean env now w).c.dir = w.c.dir := by
  unfold clean expirePass
  simp only
  split_ifs
  · exact expireFold_dir now _ w
  · exact (updateCapacity_fields env _).1.trans (expireFold_dir now _ w)

theorem clean_expire (env : Env) (now : Int) (w : World) :
    (clean env now w).c.expire = w.c.expire := by
  unfold clean expirePass
  simp only
  split_ifs
  · exact expireFold_expire now _ w
  · exact (updateCapacity_fields env _).2.1.trans (expireFold_expire now _ w)

theorem clean_keys (env : Env) (now : Int) (w : World) :
    (clean env now w).c.keys = (expirePass now w).c.keys := by
  unfold clean
  simp only
  split_ifs
  · rfl
  · exact (updateCapacity_fields env _).2.2

theorem clean_pending (env : Env) (now : Int) (w : World) :
    (clean env now w).pending =
      w.pending ++ (w.c.keys.filter (fun e => decide (e.2.expTime ≤ now))).map
        (fun e => cachePath w.c e.1) := by
  have h : (clean env now w).pending = (expirePass now w).pending := by
    unfold clean
    simp only
    split_ifs <;> rfl
  rw [h]
  exact expireFold_pending now _ w

theorem clean_keys_mono (env : Env) (now : Int) (w : World) (k : String) :
    mapGet (clean env now w).c.keys k = none ∨
      mapGet (clean env now w).c.keys k = mapGet w.c.keys k := by
  rw [clean_keys]
  exact expireFold_keys_mono now _ k w

theorem clean_read_mono (env : Env) (now : Int) (w : World) (q : String) :
    (clean env now w).fs.read q = none ∨ (clean env now w).fs.read q = w.fs.read q := by
  have h1 : (expirePass now w).fs = w.fs := expireFold_fs now _ w
  unfold clean
  simp only
  split_ifs
  · right
    rw [h1]
  · have := sweepFold_read_mono env (expirePass now w).c
      (walkFiles env (expirePass now w).fs
        (filepathJoin [(expirePass now w).c.dir, CacheDir])) q ((expirePass now w).fs, false)
    rw [h1] at this
    unfold sweepPass
    rw [h1]
    exact this

theorem clean_keys_gone (env : Env) (now : Int) (w : World) (k : String) (item : cacheItem)
    (hget : mapGet w.c.keys k = some item) (hexp : item.expTime ≤ now) :
    mapGet (clean env now w).c.keys k = none := by
  rw [clean_keys]
  exact expireFold_keys_gone now _ k item (mapGet_mem _ _ _ hget) hexp w

/-- The removal of the payload of an expired entry is under way when `clean`
returns. -/
theorem clean_pending_expired (env : Env) (now : Int) (w : World) (k : String)
    (item : cacheItem) (hget : mapGet w.c.keys k = some item) (hexp : item.expTime ≤ now) :
    cachePath w.c k ∈ (clean env now w).pending := by
  rw [clean_pending]
  apply List.mem_append_right
  exact List.mem_map.mpr ⟨(k, item),
    List.mem_filter.mpr ⟨mapGet_mem _ _ _ hget, by simpa using hexp⟩, rfl⟩

/-! ## Expiry -/

theorem afterReclaim_dir (env : Env) (now : Int) (w : World) (buf : Bytes) :
    (afterReclaim env now w buf).c.dir = w.c.dir := by
  unfold afterReclaim
  split_ifs
  · exact clean_dir env now w
  · rfl

theorem afterReclaim_expire (env : Env) (now : Int) (w : World) (buf : Bytes) :
    (afterReclaim env now w buf).c.expire = w.c.expire := by
  unfold afterReclaim
  split_ifs
  · exact clean_expire env now w
  · rfl

theorem save_fits (env : Env) (now : Int) (w : World) (key : String) (buf : Bytes)
    (hdir : w.c.dir ≠ "")
    (hfit : wrap64 ((afterReclaim env now w buf).c.used + (buf.length : Int)) <
      (afterReclaim env now w buf).c.capacity)
    (hwrite : writePathOk env (afterReclaim env now w buf).fs (cachePath w.c key) = true) :
    save env now w key buf = committed env now (afterReclaim env now w buf) key buf := by
  have hp := cachePath_congr _ w.c (afterReclaim_dir env now w buf) key
  unfold save
  rw [if_neg hdir]
  simp only
  rw [if_neg (not_le.mpr hfit)]
  exact saveWrite_ok env now _ key buf (by rw [hp]; exact hwrite)

/-- Claim C3, as the code has it: on a disk cache with a non-empty root and TTL `T`,
after a `save` at time `t` that went through (the payload fits once the
reclamation pass, if any, has run, and no step of the write path fails), the
entry carries the expiry `t + T`; a `load` at any time later than `t + T` is
a miss; a `clean` at such a time removes the entry from the table and sets
off the removal of the file at `cachePath`; and once the removals under way at
that path have landed, `os.Remove` not failing on it, no file stands there. -/
theorem expired_entry_is_reclaimed (env₁ env₂ env₃ : Env) (t t' : Int) (w : World)
    (key : String) (buf : Bytes)
    (hdir : w.c.dir ≠ "")
    (hfit : wrap64 ((afterReclaim env₁ t w buf).c.used + (buf.length : Int)) <
      (afterReclaim env₁ t w buf).c.capacity)
    (hwrite : writePathOk env₁ (afterReclaim env₁ t w buf).fs (cachePath w.c key) = true)
    (hlater : t + w.c.expire < t') :
    mapGet (save env₁ t w key buf).c.keys key =
      some { size := (buf.length : Int), expTime := t + w.c.expire } ∧
    (load env₂ t' (save env₁ t w key buf) key).1 = none ∧
    mapGet (clean env₂ t' (save env₁ t w key buf)).c.keys key = none ∧
    cachePath w.c key ∈ (clean env₂ t' (save env₁ t w key buf)).pending ∧
    (∀ w' : World, Lands env₃ (clean env₂ t' (save env₁ t w key buf)) w' →
      cachePath w.c key ∉ w'.pending → env₃.removeErr (cachePath w.c key) = false →
      w'.fs.read (cachePath w.c key) = none) := by
  have hd := afterReclaim_dir env₁ t w buf
  have he := afterReclaim_expire env₁ t w buf
  have hs := save_fits env₁ t w key buf hdir hfit hwrite
  have hget : mapGet (save env₁ t w key buf).c.keys key =
      some { size := (buf.length : Int), expTime := t + w.c.expire } := by
    rw [hs, committed_get_key, he]
    rfl
  have hsd : (save env₁ t w key buf).c.dir = w.c.dir := by
    rw [hs, committed_dir, hd]
  have hsp := cachePath_congr _ w.c hsd key
  have hpend : cachePath w.c key ∈ (clean env₂ t' (save env₁ t w key buf)).pending := by
    rw [← hsp]
    exact clean_pending_expired env₂ t' _ key _ hget (by simp; omega)
  refine ⟨hget, ?_, ?_, hpend, ?_⟩
  · rw [load_eq]
    have : exist t' (save env₁ t w key buf).c key = false := by
      unfold exist
      rw [hget]
      have : timeSub (t + w.c.expire) t' ≤ 0 := (timeSub_nonpos_iff _ _).mpr (by omega)
      simp [this]
    simp [this]
  · exact clean_keys_gone env₂ t' _ key _ hget (by simp; omega)
  · intro w' hl hout hrm
    exact Lands_gone env₃ _ w' hl _ (Or.inl hpend) hout hrm

set_option maxRecDepth 1000000 in
/-- Witness of `expired_entry_is_reclaimed`: a save at time 0 with TTL 10,
then a load and a clean at time 11, and the removal landing. -/
theorem expired_entry_is_reclaimed_witness :
    emptyWorld.c.dir ≠ "" ∧
    (load (Env.reliable []) 11 (save (Env.reliable []) 0 emptyWorld "k" [1, 2]) "k").1
      = none ∧
    mapGet (clean (Env.reliable []) 11
      (save (Env.reliable []) 0 emptyWorld "k" [1, 2])).c.keys "k" = none ∧
    (landAll (Env.reliable []) (clean (Env.reliable []) 11
      (save (Env.reliable []) 0 emptyWorld "k" [1, 2]))).fs.read (cachePath emptyWorld.c "k")
      = none :=
  ⟨by decide,
    (expired_entry_is_reclaimed (Env.reliable []) (Env.reliable []) (Env.reliable []) 0 11
      emptyWorld "k" [1, 2] (by decide) (by decide) (by decide) (by decide)).2.1,
    (expired_entry_is_reclaimed (Env.reliable []) (Env.reliable []) (Env.reliable []) 0 11
      emptyWorld "k" [1, 2] (by decide) (by decide) (by decide) (by decide)).2.2.1,
    (expired_entry_is_reclaimed (Env.reliable []) (Env.reliable []) (Env.reliable []) 0 11
      emptyWorld "k" [1, 2] (by decide) (by decide) (by decide) (by decide)).2.2.2.2 _
      (Lands_landAll _ _) (by simp [landAll_pending]) (by decide)⟩

set_option maxRecDepth 1000000 in
/-- Claim C3 as stated fails, in two ways. The payload saved at time 0 with
TTL 10 still stands at its cache path after a `clean` at time 11 during which
`os.Remove` fails, also once every removal started has run; the entry is gone
from the table, and the code drops the error of the removal. And with no call
failing, the payload of the key `../x`, which lies outside the directory the
walk goes through, still stands at its cache path when `clean` returns: its
removal has been started and is gone only once it has run. -/
theorem expired_file_stays_when_remove_fails :
    mapGet (save (Env.reliable []) 0 emptyWorld "k" [1, 2]).c.keys "k" = some ⟨2, 10⟩ ∧
    (save (Env.reliable []) 0 emptyWorld "k" [1, 2]).fs.read "/c/datacache/k"
      = some [1, 2] ∧
    cachePath emptyWorld.c "k" = "/c/datacache/k" ∧
    mapGet (clean Env.removeFails 11
      (save (Env.reliable []) 0 emptyWorld "k" [1, 2])).c.keys "k" = none ∧
    (clean Env.removeFails 11
      (save (Env.reliable []) 0 emptyWorld "k" [1, 2])).fs.read "/c/datacache/k"
      = some [1, 2] ∧
    (landAll Env.removeFails (clean Env.removeFails 11
      (save (Env.reliable []) 0 emptyWorld "k" [1, 2]))).fs.read "/c/datacache/k"
      = some [1, 2] ∧
    (landAll Env.removeFails (clean Env.removeFails 11
      (save (Env.reliable []) 0 emptyWorld "k" [1, 2]))).pending = [] ∧
    cachePath emptyWorld.c "../x" = "/c/x" ∧
    mapGet (save (Env.reliable []) 0 emptyWorld "../x" [3]).c.keys "../x" = some ⟨1, 10⟩ ∧
    mapGet (clean (Env.reliable []) 11
      (save (Env.reliable []) 0 emptyWorld "../x" [3])).c.keys "../x" = none ∧
    (clean (Env.reliable []) 11
      (save (Env.reliable []) 0 emptyWorld "../x" [3])).fs.read "/c/x" = some [3] ∧
    (clean (Env.reliable []) 11
      (save (Env.reliable []) 0 emptyWorld "../x" [3])).pending = ["/c/x"] ∧
    (landAll (Env.reliable []) (clean (Env.reliable []) 11
      (save (Env.reliable []) 0 emptyWorld "../x" [3]))).fs.read "/c/x" = none := by
  decide

/-! ## Capacity rejection -/

/-- Claim C4, as the code has it: when the capacity test `used + len(p) >= capacity` (the
`int64` comparison of the code) still holds after the reclamation pass, `save`
does nothing beyond that pass: its result is the state the pass left (the
state before the call when the root is empty), so no entry is written and no
file is written anywhere on the medium, be it at `cachePath(k)` or at its
temporary sibling: an entry or a file found afterwards was there before,
unchanged. What the pass removes, the entry of `k` and its file among them
when that entry has expired, is gone. -/
theorem save_rejected_is_noop (env : Env) (now : Int) (w : World) (key : String) (buf : Bytes)
    (hrej : (afterReclaim env now w buf).c.capacity ≤
      wrap64 ((afterReclaim env now w buf).c.used + (buf.length : Int))) :
    save env now w key buf = (if w.c.dir = "" then w else afterReclaim env now w buf) ∧
    (∀ k, mapGet (save env now w key buf).c.keys k = none ∨
      mapGet (save env now w key buf).c.keys k = mapGet w.c.keys k) ∧
    (∀ q, (save env now w key buf).fs.read q = none ∨
      (save env now w key buf).fs.read q = w.fs.read q) := by
  have hs : save env now w key buf = (if w.c.dir = "" then w else afterReclaim env now w buf) := by
    unfold save
    by_cases hd : w.c.dir = ""
    · simp [hd]
    · simp only [if_neg hd, if_pos hrej]
  refine ⟨hs, ?_, ?_⟩
  · intro k
    rw [hs]
    by_cases hd : w.c.dir = ""
    · rw [if_pos hd]; exact Or.inr rfl
    · rw [if_neg hd]
      unfold afterReclaim
      split_ifs
      · exact clean_keys_mono env now w k
      · exact Or.inr rfl
  · intro q
    rw [hs]
    by_cases hd : w.c.dir = ""
    · rw [if_pos hd]; exact Or.inr rfl
    · rw [if_neg hd]
      unfold afterReclaim
      split_ifs
      · exact clean_read_mono env now w q
      · exact Or.inr rfl

set_option maxRecDepth 1000000 in
/-- Witness of `save_rejected_is_noop`: on a full filesystem the reclamation
pass removes the stray file and `save` writes nothing. -/
theorem save_rejected_is_noop_witness :
    (afterReclaim (Env.reliable fullReport) 0 fullWorld [1, 2]).c.capacity ≤
      wrap64 ((afterReclaim (Env.reliable fullReport) 0 fullWorld [1, 2]).c.used +
        (([1, 2] : Bytes).length : Int)) ∧
    (save (Env.reliable fullReport) 0 fullWorld "n" [1, 2]).c = fullWorld.c ∧
    (save (Env.reliable fullReport) 0 fullWorld "n" [1, 2]).fs =
      ⟨[("/c", Node.dir), ("/c/datacache", Node.dir), ("/c/datacache/k", Node.file [7])]⟩ ∧
    save (Env.reliable fullReport) 0 fullWorld "n" [1, 2] =
      (if fullWorld.c.dir = "" then fullWorld
       else afterReclaim (Env.reliable fullReport) 0 fullWorld [1, 2]) :=
  ⟨by decide, by decide, by decide,
    (save_rejected_is_noop (Env.reliable fullReport) 0 fullWorld "n" [1, 2] (by decide)).1⟩

set_option maxRecDepth 1000000 in
/-- Claim C4 as stated fails: on a filesystem found full, where the key `k`
has an entry that expired at the instant 10 and its payload, `save("k", _)`
at the instant 20 is rejected after the reclamation pass, and that pass has
removed the entry of `k` from the table and the file at `cachePath("k")` from
the medium. -/
theorem rejected_save_drops_expired_entry :
    expiredFullWorld.c =
      { dir := "/c", capacity := 1024, used := 1024, expire := 10, keys := [("k", ⟨1, 10⟩)] } ∧
    cachePath expiredFullWorld.c "k" = "/c/datacache/k" ∧
    expiredFullWorld.fs.read "/c/datacache/k" = some [7] ∧
    expiredFullWorld.pending = [] ∧
    (afterReclaim (Env.reliable fullReport) 20 expiredFullWorld [1, 2]).c.capacity ≤
      (afterReclaim (Env.reliable fullReport) 20 expiredFullWorld [1, 2]).c.used +
        (([1, 2] : Bytes).length : Int) ∧
    mapGet (save (Env.reliable fullReport) 20 expiredFullWorld "k" [1, 2]).c.keys "k"
      = none ∧
    (save (Env.reliable fullReport) 20 expiredFullWorld "k" [1, 2]).fs.read "/c/datacache/k"
      = none ∧
    (save (Env.reliable fullReport) 20 expiredFullWorld "k" [1, 2]).fs.read
      "/c/datacache/k.tmp" = none := by
  decide

/-! ## Failure on the write path -/

theorem saveWrite_fail (env : Env) (now : Int) (w : World) (key : String) (buf : Bytes)
    (hfail : writePathOk env w.fs (cachePath w.c key) = false) :
    (createFails env (MkdirAll env w.fs (filepathDir (cachePath w.c key)))
        (cachePath w.c key ++ ".tmp") = true ∧
      saveWrite env now w key buf =
        { w with fs := (MkdirAll env w.fs (filepathDir (cachePath w.c key))).1 }) ∨
    (createFails env (MkdirAll env w.fs (filepathDir (cachePath w.c key)))
        (cachePath w.c key ++ ".tmp") = false ∧
      ∃ content : Bytes, saveWrite env now w key buf =
        { w with fs := (osRemove env
            (((MkdirAll env w.fs (filepathDir (cachePath w.c key))).1.write
              (cachePath w.c key ++ ".tmp") []).write
              (cachePath w.c key ++ ".tmp") content) (cachePath w.c key ++ ".tmp")).1 }) := by
  have hd2 : ∀ content : Bytes,
      (((MkdirAll env w.fs (filepathDir (cachePath w.c key))).1.write
      (cachePath w.c key ++ ".tmp") []).write (cachePath w.c key ++ ".tmp") content).isDir
      (cachePath w.c key) =
      (MkdirAll env w.fs (filepathDir (cachePath w.c key))).1.isDir (cachePath w.c key) := by
    intro content
    rw [isDir_write_ne _ _ _ _ (append_tmp_ne _).symm,
      isDir_write_ne _ _ _ _ (append_tmp_ne _).symm]
  unfold saveWrite createDir
  simp only
  cases hc : createFails env (MkdirAll env w.fs (filepathDir (cachePath w.c key)))
    (cachePath w.c key ++ ".tmp")
  · right
    refine ⟨rfl, ?_⟩
    cases hw : env.writeErr (cachePath w.c key ++ ".tmp") with
    | some n => exact ⟨buf.take n, by simp⟩
    | none =>
      cases hcl : env.closeErr (cachePath w.c key ++ ".tmp")
      · cases hrn : renameFails env
          (((MkdirAll env w.fs (filepathDir (cachePath w.c key))).1.write
            (cachePath w.c key ++ ".tmp") []).write (cachePath w.c key ++ ".tmp") buf)
          (cachePath w.c key ++ ".tmp") (cachePath w.c key)
        · exfalso
          unfold renameFails at hrn
          rw [hd2 buf] at hrn
          simp only [Bool.or_eq_false_iff] at hrn
          simp [writePathOk, hc, hw, hcl, hrn.1, hrn.2] at hfail
        · exact ⟨buf, by simp⟩
      · exact ⟨buf, by simp⟩
  · left
    exact ⟨rfl, by simp⟩

/-- Claim C5, as the code has it: on a cache with a non-empty root, for a
payload within budget, when one of the steps create-temp, write, close or
rename fails, `save` leaves the cache record (the metadata table with it) as
it was and every file other than the temporary one as it was, the file at
`cachePath(k)` among them. When the step that fails is create-temp no file of
the medium is touched at all, the directories made for the key apart; when it
is a later step and the removal of the temporary file does not fail, no
temporary file remains. -/
theorem save_failure_is_atomic (env : Env) (now : Int) (w : World) (key : String) (buf : Bytes)
    (hdir : w.c.dir ≠ "")
    (hbudget : wrap64 (w.c.used + (buf.length : Int)) < w.c.capacity)
    (hfail : writePathOk env w.fs (cachePath w.c key) = false) :
    (save env now w key buf).c = w.c ∧
    (save env now w key buf).fs.read (cachePath w.c key) = w.fs.read (cachePath w.c key) ∧
    (∀ q, q ≠ cachePath w.c key ++ ".tmp" →
      (save env now w key buf).fs.read q = w.fs.read q) ∧
    (createFails env (MkdirAll env w.fs (filepathDir (cachePath w.c key)))
        (cachePath w.c key ++ ".tmp") = true →
      save env now w key buf =
        { w with fs := (MkdirAll env w.fs (filepathDir (cachePath w.c key))).1 } ∧
      ∀ q, (save env now w key buf).fs.read q = w.fs.read q) ∧
    (createFails env (MkdirAll env w.fs (filepathDir (cachePath w.c key)))
        (cachePath w.c key ++ ".tmp") = false →
      env.removeErr (cachePath w.c key ++ ".tmp") = false →
      (save env now w key buf).fs.read (cachePath w.c key ++ ".tmp") = none) := by
  rw [save_in_budget env now w key buf hdir hbudget]
  have hother : ∀ q, q ≠ cachePath w.c key ++ ".tmp" →
      (saveWrite env now w key buf).fs.read q = w.fs.read q := by
    intro q hq
    rcases saveWrite_fail env now w key buf hfail with ⟨-, h⟩ | ⟨-, content, h⟩
    · rw [h]
      exact MkdirAll_read env _ _ _
    · rw [h]
      simp only
      rw [osRemove_read_ne env _ _ _ hq, read_write_ne _ _ _ _ hq, read_write_ne _ _ _ _ hq]
      exact MkdirAll_read env _ _ _
  refine ⟨?_, hother _ (append_tmp_ne _).symm, hother, ?_, ?_⟩
  · rcases saveWrite_fail env now w key buf hfail with ⟨-, h⟩ | ⟨-, content, h⟩ <;> rw [h]
  · intro hc
    rcases saveWrite_fail env now w key buf hfail with ⟨-, h⟩ | ⟨hc', -⟩
    · refine ⟨h, ?_⟩
      intro q
      rw [h]
      exact MkdirAll_read env _ _ _
    · rw [hc] at hc'; cases hc'
  · intro hc hrm
    rcases saveWrite_fail env now w key buf hfail with ⟨hc', -⟩ | ⟨-, content, h⟩
    · rw [hc] at hc'; cases hc'
    · rw [h]
      exact osRemove_read_self env _ _ hrm

set_option maxRecDepth 1000000 in
/-- Witness of `save_failure_is_atomic`: a failing rename leaves the table
empty, no file at the final path and no temporary file. -/
theorem save_failure_is_atomic_witness :
    writePathOk Env.renameFails emptyWorld.fs (cachePath emptyWorld.c "k") = false ∧
    (save Env.renameFails 0 emptyWorld "k" [1, 2]).c = emptyWorld.c ∧
    (save Env.renameFails 0 emptyWorld "k" [1, 2]).fs.read (cachePath emptyWorld.c "k")
      = emptyWorld.fs.read (cachePath emptyWorld.c "k") ∧
    (save Env.renameFails 0 emptyWorld "k" [1, 2]).fs.read
      (cachePath emptyWorld.c "k" ++ ".tmp") = none :=
  have h := save_failure_is_atomic Env.renameFails 0 emptyWorld "k" [1, 2]
    (by decide) (by decide) (by decide)
  ⟨by decide, h.1, h.2.1, h.2.2.2.2 (by decide) (by decide)⟩

set_option maxRecDepth 1000000 in
/-- Claim C5 as stated fails: when the step that fails is create-temp, `save`
returns without touching any file, so a temporary file that stood at
`cachePath(k) + ".tmp"` before the call is still there afterwards. -/
theorem stale_tmp_survives_failed_create :
    staleTmpWorld.c.dir ≠ "" ∧
    staleTmpWorld.c.used + (([1, 2] : Bytes).length : Int) < staleTmpWorld.c.capacity ∧
    Env.createFails.createErr (cachePath staleTmpWorld.c "k" ++ ".tmp") = true ∧
    (save Env.createFails 0 staleTmpWorld "k" [1, 2]).fs.read
      (cachePath staleTmpWorld.c "k" ++ ".tmp") = some [9] := by
  decide

/-! ## Live entries under `clean` -/

theorem getKeyFromCachePath_congr (c d : diskCache) (h : c.dir = d.dir) (path : String) :
    getKeyFromCachePath c path = getKeyFromCachePath d path := by
  simp [getKeyFromCachePath, h]

theorem sweepStep_read_keep (env : Env) (c : diskCache) (acc : Medium × Bool)
    (path q : String) (h : (mapGet c.keys (getKeyFromCachePath c q)).isSome = true) :
    (sweepStep env c acc path).1.read q = acc.1.read q := by
  unfold sweepStep
  split_ifs with h1 h2 h3
  · rfl
  · rfl
  · rfl
  · have hne : q ≠ path := by
      intro hq
      rw [hq] at h
      exact h3 h
    exact osRemove_read_ne env acc.1 path q hne

theorem sweepFold_read_keep (env : Env) (c : diskCache) (l : List String) (q : String)
    (h : (mapGet c.keys (getKeyFromCachePath c q)).isSome = true) :
    ∀ acc : Medium × Bool, (l.foldl (sweepStep env c) acc).1.read q = acc.1.read q := by
  induction l with
  | nil => intro acc; rfl
  | cons p l ih =>
    intro acc
    rw [List.foldl_cons, ih, sweepStep_read_keep env c acc p q h]

/-- Claim C6, as the code has it: `clean` leaves a live entry and its payload
untouched when the key is the one `getKeyFromCachePath` recovers from its
path and no expired entry of another key maps to the same path: the entry is
still in the table with the same size and expiry, and the file at
`cachePath(k)` still holds the same content, when `clean` returns and also
once removals under way have landed, provided none was under way at that path
before the call. The table is a map: no key occurs twice in it. -/
theorem clean_keeps_live_entry (env : Env) (now : Int) (w : World) (k : String)
    (item : cacheItem) (content : Bytes)
    (hmap : (w.c.keys.map Prod.fst).Nodup)
    (hget : mapGet w.c.keys k = some item)
    (hlive : now < item.expTime)
    (hfile : w.fs.read (cachePath w.c k) = some content)
    (hkey : getKeyFromCachePath w.c (cachePath w.c k) = k)
    (hpath : ∀ e ∈ w.c.keys, e.1 ≠ k → e.2.expTime ≤ now →
      cachePath w.c e.1 ≠ cachePath w.c k) :
    mapGet (clean env now w).c.keys k = some item ∧
    (clean env now w).fs.read (cachePath w.c k) = some content ∧
    (cachePath w.c k ∉ w.pending →
      ∀ (env' : Env) (w' : World), Lands env' (clean env now w) w' →
        mapGet w'.c.keys k = some item ∧ w'.fs.read (cachePath w.c k) = some content) := by
  have hne : ∀ e ∈ w.c.keys, e.2.expTime ≤ now → e.1 ≠ k := by
    intro e he hx heq
    obtain ⟨k', item'⟩ := e
    simp only at heq hx
    subst heq
    have := mapGet_of_mem_nodup _ _ _ hmap he
    rw [hget] at this
    cases this
    omega
  have hpath' : ∀ e ∈ w.c.keys, e.2.expTime ≤ now → cachePath w.c e.1 ≠ cachePath w.c k :=
    fun e he hx => hpath e he (hne e he hx) hx
  have hk1 : mapGet (expirePass now w).c.keys k = some item := by
    unfold expirePass
    rw [expireFold_keys_keep now _ k hne w, hget]
  have hf1 : (expirePass now w).fs.read (cachePath w.c k) = some content := by
    unfold expirePass
    rw [expireFold_fs now _ w, hfile]
  have hd1 : (expirePass now w).c.dir = w.c.dir := expireFold_dir now _ w
  have hkeys : mapGet (clean env now w).c.keys k = some item := by rw [clean_keys, hk1]
  have hread : (clean env now w).fs.read (cachePath w.c k) = some content := by
    unfold clean
    simp only
    split_ifs
    · exact hf1
    · simp only
      unfold sweepPass
      rw [sweepFold_read_keep env _ _ _ ?_ _]
      · exact hf1
      · rw [getKeyFromCachePath_congr _ w.c hd1, hkey, hk1]
        rfl
  refine ⟨hkeys, hread, ?_⟩
  intro hpend env' w' hl
  have hnot : cachePath w.c k ∉ (clean env now w).pending := by
    rw [clean_pending]
    intro hin
    rcases List.mem_append.mp hin with h | h
    · exact hpend h
    · obtain ⟨e, he, heq⟩ := List.mem_map.mp h
      have he' := List.mem_filter.mp he
      exact hpath' e he'.1 (by simpa using he'.2) heq
  constructor
  · rw [Lands_c env' _ w' hl]
    exact hkeys
  · rw [Lands_read_keep env' _ w' hl _ hnot]
    exact hread

set_option maxRecDepth 1000000 in
/-- Witness of `clean_keeps_live_entry` on a cache with one live entry. -/
theorem clean_keeps_live_entry_witness :
    mapGet liveWorld.c.keys "k" = some ⟨1, 5⟩ ∧
    mapGet (clean (Env.reliable []) 0 liveWorld).c.keys "k" = some ⟨1, 5⟩ ∧
    (clean (Env.reliable []) 0 liveWorld).fs.read (cachePath liveWorld.c "k") = some [7] ∧
    (landAll (Env.reliable []) (clean (Env.reliable []) 0 liveWorld)).fs.read
      (cachePath liveWorld.c "k") = some [7] :=
  have h := clean_keeps_live_entry (Env.reliable []) 0 liveWorld "k" ⟨1, 5⟩ [7]
    (by decide) (by decide) (by decide) (by decide) (by decide) (by decide)
  ⟨by decide, h.1, h.2.1,
    (h.2.2 (by decide) (Env.reliable []) _ (Lands_landAll _ _)).2⟩

set_option maxRecDepth 1000000 in
/-- Claim C6 as stated fails: after `save("./a", p)` the key `./a` has a live
entry and its payload stands at `cachePath("./a") = /c/datacache/a`, but the
walk of `clean` recovers the key `a` from that path, finds no entry for it
and removes the file, while the entry stays in the table. -/
theorem clean_removes_payload_of_dot_key :
    mapGet (save (Env.reliable []) 0 emptyWorld "./a" [7]).c.keys "./a" = some ⟨1, 10⟩ ∧
    (0 : Int) < 10 ∧
    cachePath emptyWorld.c "./a" = "/c/datacache/a" ∧
    (save (Env.reliable []) 0 emptyWorld "./a" [7]).fs.read (cachePath emptyWorld.c "./a")
      = some [7] ∧
    getKeyFromCachePath emptyWorld.c (cachePath emptyWorld.c "./a") = "a" ∧
    mapGet (clean (Env.reliable []) 0
      (save (Env.reliable []) 0 emptyWorld "./a" [7])).c.keys "./a" = some ⟨1, 10⟩ ∧
    (clean (Env.reliable []) 0
      (save (Env.reliable []) 0 emptyWorld "./a" [7])).fs.read (cachePath emptyWorld.c "./a")
      = none := by
  decide

/-! ## Orphan sweep -/

theorem walkInsert_perm (p : String) (l : List String) : (walkInsert p l).Perm (p :: l) := by
  induction l with
  | nil => exact List.Perm.refl _
  | cons q qs ih =>
    unfold walkInsert
    split_ifs
    · exact (List.Perm.cons q ih).trans (List.Perm.swap p q qs)
    · exact List.Perm.refl _

theorem walkSort_perm (l : List String) : (walkSort l).Perm l := by
  induction l with
  | nil => exact List.Perm.refl _
  | cons p ps ih =>
    unfold walkSort
    exact (walkInsert_perm p _).trans (List.Perm.cons p ih)

theorem mapGet_isSome_iff {β : Type} (m : List (String × β)) (k : String) :
    (mapGet m k).isSome = true ↔ k ∈ m.map Prod.fst := by
  induction m with
  | nil => simp [mapGet]
  | cons e r ih =>
    obtain ⟨k₀, x⟩ := e
    by_cases h₀ : k₀ = k
    · simp [mapGet, h₀]
    · simp only [mapGet, if_neg h₀, ih, List.map_cons, List.mem_cons]
      constructor
      · intro h; exact Or.inr h
      · intro h
        rcases h with h | h
        · exact absurd h.symm h₀
        · exact h

theorem mem_walkFiles (env : Env) (m : Medium) (root p : String) :
    p ∈ walkFiles env m root ↔
      (m.read p).isSome = true ∧
        (p = root ∨ hasPrefixChars p.data (root ++ "/").data = true) ∧
        env.walkReaches root p = true := by
  unfold walkFiles
  rw [(walkSort_perm _).mem_iff, List.mem_filter, List.mem_dedup]
  constructor
  · intro h
    simp only [Bool.and_eq_true, Bool.or_eq_true, decide_eq_true_eq] at h
    exact ⟨h.2.1.1, h.2.1.2, h.2.2⟩
  · intro h
    simp only [Bool.and_eq_true, Bool.or_eq_true, decide_eq_true_eq]
    refine ⟨?_, ⟨h.1, h.2.1⟩, h.2.2⟩
    have h1 := h.1
    unfold Medium.read at h1
    have : (mapGet m.nodes p).isSome = true := by
      cases hn : mapGet m.nodes p with
      | none => rw [hn] at h1; cases h1
      | some n => rfl
    simpa using (mapGet_isSome_iff _ _).mp this

theorem walkFiles_nodup (env : Env) (m : Medium) (root : String) :
    (walkFiles env m root).Nodup := by
  unfold walkFiles
  rw [(walkSort_perm _).nodup_iff]
  exact (List.nodup_dedup _).filter _

theorem walkReaches_of_reliable (env : Env) (root p : String)
    (hlstat : ∀ p, env.lstatErr p = false) (hreaddir : ∀ p, env.readDirErr p = false) :
    env.walkReaches root p = true := by
  unfold Env.walkReaches
  simp [hlstat, hreaddir]

theorem sweepFold_removes (env : Env) (c : diskCache)
    (hremove : ∀ p, env.removeErr p = false) (hlstat : ∀ p, env.lstatErr p = false)
    (l : List String) :
    ∀ m : Medium, l.Nodup → (∀ p ∈ l, (m.read p).isSome = true) →
      (l.foldl (sweepStep env c) (m, false)).2 = false ∧
      ∀ p ∈ l, mapGet c.keys (getKeyFromCachePath c p) = none →
        (l.foldl (sweepStep env c) (m, false)).1.read p = none := by
  induction l with
  | nil => intro m _ _; simp
  | cons p l ih =>
    intro m hnd hpres
    rw [List.nodup_cons] at hnd
    rw [List.foldl_cons]
    have hp : (m.read p).isSome = true := hpres p (List.mem_cons_self _ _)
    cases hk : mapGet c.keys (getKeyFromCachePath c p) with
    | some item =>
      have hstep : sweepStep env c (m, false) p = (m, false) := by
        simp [sweepStep, hlstat, hk]
      rw [hstep]
      obtain ⟨h1, h2⟩ := ih m hnd.2 (fun q hq => hpres q (List.mem_cons_of_mem _ hq))
      refine ⟨h1, ?_⟩
      intro q hq hqk
      rcases List.mem_cons.mp hq with hq | hq
      · rw [hq, hk] at hqk; cases hqk
      · exact h2 q hq hqk
    | none =>
      obtain ⟨content, hcontent⟩ := Option.isSome_iff_exists.mp hp
      have hstep : sweepStep env c (m, false) p = (m.remove p, false) := by
        simp [sweepStep, hlstat, hk, osRemove_file env m p content hcontent (hremove p)]
      rw [hstep]
      have hpres' : ∀ q ∈ l, ((m.remove p).read q).isSome = true := by
        intro q hq
        have hne : q ≠ p := fun h => hnd.1 (h ▸ hq)
        rw [read_remove_ne m p q hne]
        exact hpres q (List.mem_cons_of_mem _ hq)
      obtain ⟨h1, h2⟩ := ih (m.remove p) hnd.2 hpres'
      refine ⟨h1, ?_⟩
      intro q hq hqk
      rcases List.mem_cons.mp hq with hq | hq
      · rcases sweepFold_read_mono env c l q (m.remove p, false) with h | h
        · exact h
        · rw [h, hq]; exact read_remove_self m p
      · exact h2 q hq hqk

/-- Claim C7, as the code has it: on a disk cache whose root is neither empty nor `/`,
when no call of the walk fails (`Lstat`, the reading of a directory,
`Remove`), `clean` removes from the medium every regular file that lies under
the cache directory `<root>/datacache` and whose recovered key has no entry
in the metadata table: no file is left at its path. -/
theorem clean_sweeps_orphans (env : Env) (now : Int) (w : World) (path : String)
    (hroot : w.c.dir ≠ "") (hslash : w.c.dir ≠ "/")
    (hunder : hasPrefixChars path.data (filepathJoin [w.c.dir, CacheDir] ++ "/").data = true)
    (horphan : mapGet w.c.keys (getKeyFromCachePath w.c path) = none)
    (hremove : ∀ p, env.removeErr p = false) (hlstat : ∀ p, env.lstatErr p = false)
    (hreaddir : ∀ p, env.readDirErr p = false) :
    (clean env now w).fs.read path = none := by
  have hd1 : (expirePass now w).c.dir = w.c.dir := expireFold_dir now _ w
  have hf1 : (expirePass now w).fs = w.fs := expireFold_fs now _ w
  have hk1 : mapGet (expirePass now w).c.keys
      (getKeyFromCachePath (expirePass now w).c path) = none := by
    rw [getKeyFromCachePath_congr _ w.c hd1]
    rcases expireFold_keys_mono now w.c.keys (getKeyFromCachePath w.c path) w with h | h
    · exact h
    · unfold expirePass; rw [h]; exact horphan
  unfold clean
  simp only
  rw [hd1]
  have hg : (w.c.dir = "/" || w.c.dir = "") = false := by simp [hroot, hslash]
  simp only [hg, Bool.false_eq_true, if_false]
  unfold sweepPass
  rw [hf1, hd1]
  cases hr : w.fs.read path with
  | none =>
    rcases sweepFold_read_mono env (expirePass now w).c
      (walkFiles env w.fs (filepathJoin [w.c.dir, CacheDir]))
      path (w.fs, false) with h | h
    · exact h
    · rw [h]; exact hr
  | some content' =>
    have hmem : path ∈ walkFiles env w.fs (filepathJoin [w.c.dir, CacheDir]) := by
      rw [mem_walkFiles, hr]
      exact ⟨rfl, Or.inr hunder, walkReaches_of_reliable env _ _ hlstat hreaddir⟩
    exact (sweepFold_removes env (expirePass now w).c hremove hlstat _ _
      (walkFiles_nodup _ _ _) (fun q hq => ((mem_walkFiles _ _ _ _).mp hq).1)).2 path hmem hk1

set_option maxRecDepth 1000000 in
/-- Witness of `clean_sweeps_orphans`: the stray file under `/c/datacache` is
removed, the payload of the live entry stays. -/
theorem clean_sweeps_orphans_witness :
    fullWorld.fs.read "/c/datacache/stray" = some [8] ∧
    (clean (Env.reliable []) 0 fullWorld).fs.read "/c/datacache/stray" = none ∧
    (clean (Env.reliable []) 0 fullWorld).fs.read "/c/datacache/k" = some [7] :=
  ⟨by decide,
    clean_sweeps_orphans (Env.reliable []) 0 fullWorld "/c/datacache/stray"
      (by decide) (by decide) (by decide) (by decide) (fun _ => rfl) (fun _ => rfl)
      (fun _ => rfl),
    by decide⟩

set_option maxRecDepth 1000000 in
/-- Claim C7 as stated fails. Two files without an entry, `a` and `b`, stand
under the cache directory. When `os.Remove` fails on `a`, the callback
returns the error, the walk ends there and `b`, on which no call would fail,
is left as well. When `Lstat` fails on `a`, the callback passes it over and
only `b` is removed. When the cache directory cannot be read, the walk does
not get to either file. -/
theorem clean_leaves_orphans_on_failure :
    twoOrphansWorld.c.dir = "/c" ∧ twoOrphansWorld.c.keys = [] ∧
    twoOrphansWorld.fs.read "/c/datacache/a" = some [1] ∧
    twoOrphansWorld.fs.read "/c/datacache/b" = some [2] ∧
    Env.removeFailsAtA.removeErr "/c/datacache/b" = false ∧
    Env.removeFailsAtA.lstatErr "/c/datacache/b" = false ∧
    (clean Env.removeFailsAtA 0 twoOrphansWorld).fs.read "/c/datacache/a" = some [1] ∧
    (clean Env.removeFailsAtA 0 twoOrphansWorld).fs.read "/c/datacache/b" = some [2] ∧
    (clean Env.lstatFailsAtA 0 twoOrphansWorld).fs.read "/c/datacache/a" = some [1] ∧
    (clean Env.lstatFailsAtA 0 twoOrphansWorld).fs.read "/c/datacache/b" = none ∧
    (clean Env.readDirFails 0 twoOrphansWorld).fs.read "/c/datacache/a" = some [1] ∧
    (clean Env.readDirFails 0 twoOrphansWorld).fs.read "/c/datacache/b" = some [2] := by
  decide

/-! ## Idempotent delete -/

theorem osRemove_absent (env : Env) (m : Medium) (p : String)
    (h : mapGet m.nodes p = none) : (osRemove env m p).1 = m := by
  unfold osRemove
  by_cases h1 : env.removeErr p = true
  · simp [h1]
  · simp [h1, h]

theorem landAll_delete_fs (env : Env) (w : World) (k : String) :
    (landAll env (delete w k)).fs =
      (osRemove env (landAll env w).fs (cachePath w.c k)).1 := by
  unfold landAll
  simp only [delete_pending, delete_fs, List.foldl_append, List.foldl_cons, List.foldl_nil]

/-- Claim C8, as the code has it. The call `delete(k)` never fails and returns before its
removal has touched the medium: on a key without an entry the cache record
(metadata table and capacity counters) is as it was; for every key the medium
is as it was when the call returns, one removal of `cachePath(k)` has been set
off, whether or not the key had an entry, the entry of the key is gone, and
the other entries and the counters are as they were. Once that removal has
landed without failing no file stands at `cachePath(k)`; a file at another
path, at which no removal was under way, is not touched; so on a key without
an entry, with no removal under way before the call and nothing standing at
`cachePath(k)`, the whole state is as before the call once the removal has
landed. A second `delete(k)` leaves, when it returns, the cache record and the
medium as the first left them, with one more removal of the same path set
off, and once the removals have landed, in the order they were set off, the
state is the one a single `delete(k)` leads to. -/
theorem delete_idempotent (env : Env) (w : World) (k : String) :
    (mapGet w.c.keys k = none → (delete w k).c = w.c) ∧
    (delete w k).fs = w.fs ∧
    (delete w k).pending = w.pending ++ [cachePath w.c k] ∧
    (mapGet (delete w k).c.keys k = none ∧
      (∀ k', k' ≠ k → mapGet (delete w k).c.keys k' = mapGet w.c.keys k') ∧
      (delete w k).c.capacity = w.c.capacity ∧ (delete w k).c.used = w.c.used) ∧
    (∀ w' : World, Lands env (delete w k) w' → cachePath w.c k ∉ w'.pending →
      env.removeErr (cachePath w.c k) = false → w'.fs.read (cachePath w.c k) = none) ∧
    (∀ (w' : World) (q : String), Lands env (delete w k) w' → q ≠ cachePath w.c k →
      q ∉ w.pending → w'.fs.read q = w.fs.read q) ∧
    (mapGet w.c.keys k = none → w.pending = [] →
      mapGet w.fs.nodes (cachePath w.c k) = none → landAll env (delete w k) = w) ∧
    ((delete (delete w k) k).c = (delete w k).c ∧
      (delete (delete w k) k).fs = (delete w k).fs ∧
      (delete (delete w k) k).pending = (delete w k).pending ++ [cachePath w.c k] ∧
      landAll env (delete (delete w k) k) = landAll env (delete w k)) := by
  have hc : mapGet w.c.keys k = none → (delete w k).c = w.c := by
    intro habs
    rw [delete_c, mapDelete_of_absent _ _ habs]
  have hcc : (delete (delete w k) k).c = (delete w k).c := by
    rw [delete_c, delete_c]
    simp only
    rw [mapDelete_idem]
  have hp2 : cachePath (delete w k).c k = cachePath w.c k :=
    cachePath_congr _ w.c (delete_dir w k) k
  refine ⟨hc, rfl, delete_pending w k, ⟨delete_keys_self w k,
    fun k' hk' => delete_keys_ne w k k' hk', by rw [delete_c], by rw [delete_c]⟩,
    ?_, ?_, ?_, hcc, rfl, by rw [delete_pending (delete w k) k, hp2], ?_⟩
  · intro w' hl hout hrm
    refine Lands_gone env _ w' hl _ (Or.inl ?_) hout hrm
    rw [delete_pending]
    simp
  · intro w' q hl hq hpend
    rw [Lands_read_keep env _ w' hl q ?_]
    · rfl
    · rw [delete_pending]
      simp [hq, hpend]
  · intro habs hpend hnode
    apply World_ext
    · exact hc habs
    · rw [landAll_delete_fs]
      have : (landAll env w).fs = w.fs := by simp [landAll, hpend]
      rw [this]
      exact osRemove_absent env _ _ hnode
    · rw [landAll_pending, hpend]
  · apply World_ext
    · exact hcc
    · rw [landAll_delete_fs, landAll_delete_fs, hp2]
      exact osRemove_idem env _ _
    · rfl

set_option maxRecDepth 1000000 in
/-- Witness of `delete_idempotent`: deleting a key that has neither an entry
nor a file changes nothing, and deleting a live key twice is deleting it once:
the entry is gone and, the removals landed, so is the file. -/
theorem delete_idempotent_witness :
    mapGet emptyWorld.c.keys "k" = none ∧
    landAll (Env.reliable []) (delete emptyWorld "k") = emptyWorld ∧
    landAll (Env.reliable []) (delete (delete liveWorld "k") "k") =
      landAll (Env.reliable []) (delete liveWorld "k") ∧
    (landAll (Env.reliable []) (delete liveWorld "k")).fs.read "/c/datacache/k" = none ∧
    (delete liveWorld "k").fs.read "/c/datacache/k" = some [7] :=
  ⟨by decide,
    (delete_idempotent (Env.reliable []) emptyWorld "k").2.2.2.2.2.2.1
      (by decide) (by decide) (by decide),
    (delete_idempotent (Env.reliable []) liveWorld "k").2.2.2.2.2.2.2.2.2.2,
    (delete_idempotent (Env.reliable []) liveWorld "k").2.2.2.2.1 _
      (Lands_landAll _ _) (by simp [landAll_pending]) (by decide),
    by decide⟩

set_option maxRecDepth 1000000 in
/-- Claim C8 as stated fails: the key `k` has no entry, yet `delete(k)` sets
off the removal of the file that stands at `cachePath(k)`; once the removal
has landed the file is gone, so the medium is not left unchanged. -/
theorem delete_of_absent_key_removes_file :
    mapGet orphanWorld.c.keys "k" = none ∧
    orphanWorld.pending = [] ∧
    orphanWorld.fs.read (cachePath orphanWorld.c "k") = some [7] ∧
    (delete orphanWorld "k").pending = [cachePath orphanWorld.c "k"] ∧
    (landAll (Env.reliable []) (delete orphanWorld "k")).fs.read
      (cachePath orphanWorld.c "k") = none ∧
    (landAll (Env.reliable []) (delete orphanWorld "k")).fs ≠ orphanWorld.fs := by
  decide

/-! ## Saves to different keys -/

/-- Claim C10: `NewDiskCache` returns no instance when the config is `nil`,
when `Dir` is the empty string and when `Dir` is `/`; for every other config
it returns an instance whose `dir` is `config.Dir`, whose `expire` is
`config.Expire` and whose metadata table is empty. -/
theorem NewDiskCache_guard (env : Env) (cfg : DiskConfig) :
    NewDiskCache env none = none ∧
    (cfg.Dir = "" ∨ cfg.Dir = "/" → NewDiskCache env (some cfg) = none) ∧
    (cfg.Dir ≠ "" → cfg.Dir ≠ "/" →
      ∃ c, NewDiskCache env (some cfg) = some c ∧
        c.dir = cfg.Dir ∧ c.expire = cfg.Expire ∧ c.keys = []) := by
  refine ⟨rfl, ?_, ?_⟩
  · intro h
    have hg : (cfg.Dir = "" || cfg.Dir = "/") = true := by
      rcases h with h | h <;> simp [h]
    simp only [NewDiskCache, hg, if_true]
  · intro h1 h2
    have hg : (cfg.Dir = "" || cfg.Dir = "/") = false := by simp [h1, h2]
    have hf := updateCapacity_fields env
      { dir := cfg.Dir, capacity := 0, used := 0, expire := cfg.Expire, keys := [] }
    exact ⟨_, by simp only [NewDiskCache, hg, Bool.false_eq_true, if_false], hf.1, hf.2.1, hf.2.2⟩

set_option maxRecDepth 100000 in
/-- Witness of `NewDiskCache_guard`: the config `/c` with TTL 10 on a full
filesystem of 1 KB, and the two roots that are refused. -/
theorem NewDiskCache_guard_witness :
    NewDiskCache (Env.reliable fullReport) (some { Dir := "/c", Mode := 0, Expire := 10 }) =
      some { dir := "/c", capacity := 1024, used := 1024, expire := 10, keys := [] } ∧
    NewDiskCache (Env.reliable fullReport) (some { Dir := "/", Mode := 0, Expire := 10 }) = none ∧
    (∃ c, NewDiskCache (Env.reliable fullReport)
        (some { Dir := "/c", Mode := 0, Expire := 10 }) = some c ∧
      c.dir = "/c" ∧ c.expire = 10 ∧ c.keys = []) :=
  ⟨by decide,
    (NewDiskCache_guard (Env.reliable fullReport) { Dir := "/", Mode := 0, Expire := 10 }).2.1
      (Or.inr rfl),
    (NewDiskCache_guard (Env.reliable fullReport) { Dir := "/c", Mode := 0, Expire := 10 }).2.2
      (by decide) (by decide)⟩

/-! ## Key and path -/

theorem splitSlash_ne_nil (s : List Char) : splitSlash s ≠ [] := by
  cases s with
  | nil => simp [splitSlash]
  | cons c cs =>
    unfold splitSlash
    cases splitSlash cs with
    | nil => by_cases h : c = '/' <;> simp [h]
    | cons w ws => by_cases h : c = '/' <;> simp [h]

theorem splitSlash_cons (c : Char) (cs : List Char) (w : List Char) (ws : List (List Char))
    (h : splitSlash cs = w :: ws) :
    splitSlash (c :: cs) = if c = '/' then [] :: w :: ws else (c :: w) :: ws := by
  rw [splitSlash, h]

theorem splitSlash_append (a b : List Char) :
    splitSlash (a ++ '/' :: b) = splitSlash a ++ splitSlash b := by
  induction a with
  | nil =>
    obtain ⟨w, ws, h⟩ := List.exists_cons_of_ne_nil (splitSlash_ne_nil b)
    rw [List.nil_append, splitSlash_cons _ _ _ _ h, h]
    simp [splitSlash]
  | cons c a ih =>
    obtain ⟨w, ws, h⟩ := List.exists_cons_of_ne_nil (splitSlash_ne_nil a)
    rw [List.cons_append, splitSlash_cons c (a ++ '/' :: b) w (ws ++ splitSlash b)
      (by rw [ih, h]; rfl), splitSlash_cons c a w ws h]
    by_cases hc : c = '/' <;> simp [hc]

theorem joinSlash_cons_cons (e f : List Char) (es : List (List Char)) :
    joinSlash (e :: f :: es) = e ++ '/' :: joinSlash (f :: es) := by
  rw [joinSlash]

theorem joinSlash_splitSlash (s : List Char) : joinSlash (splitSlash s) = s := by
  induction s with
  | nil => simp [splitSlash, joinSlash]
  | cons c cs ih =>
    obtain ⟨w, ws, h⟩ := List.exists_cons_of_ne_nil (splitSlash_ne_nil cs)
    rw [splitSlash_cons c cs w ws h]
    rw [h] at ih
    by_cases hc : c = '/'
    · rw [if_pos hc, joinSlash_cons_cons, ih, hc]
      rfl
    · rw [if_neg hc]
      cases ws with
      | nil =>
        simp only [joinSlash] at ih ⊢
        rw [ih]
      | cons f es =>
        rw [joinSlash_cons_cons] at ih ⊢
        rw [List.cons_append, ih]

theorem joinSlash_append (A B : List (List Char)) (hA : A ≠ []) (hB : B ≠ []) :
    joinSlash (A ++ B) = joinSlash A ++ '/' :: joinSlash B := by
  induction A with
  | nil => exact absurd rfl hA
  | cons e A ih =>
    cases A with
    | nil =>
      obtain ⟨f, es, h⟩ := List.exists_cons_of_ne_nil hB
      rw [h]
      simp [joinSlash]
    | cons f es =>
      rw [List.cons_append, List.cons_append, joinSlash_cons_cons, ← List.cons_append,
        ih (by simp), joinSlash_cons_cons]
      simp

theorem cleanStep_plain (rooted : Bool) (stack : List (List Char)) (e : List Char)
    (h : plainElem e = true) : cleanStep rooted stack e = e :: stack := by
  simp only [plainElem, Bool.and_eq_true, Bool.not_eq_true', decide_eq_false_iff_not] at h
  unfold cleanStep
  rw [if_neg h.1.1, if_neg h.1.2, if_neg h.2]

theorem cleanFold_plain (rooted : Bool) (B : List (List Char)) :
    ∀ stack : List (List Char), (∀ e ∈ B, plainElem e = true) →
      B.foldl (cleanStep rooted) stack = B.reverse ++ stack := by
  induction B with
  | nil => intro stack _; rfl
  | cons e B ih =>
    intro stack h
    rw [List.foldl_cons, cleanStep_plain rooted stack e (h e (List.mem_cons_self _ _)),
      ih _ (fun x hx => h x (List.mem_cons_of_mem _ hx))]
    simp

theorem cleanChars_cons (c : Char) (cs : List Char) :
    cleanChars (c :: cs) =
      if decide (c = '/') = true then
        '/' :: joinSlash ((splitSlash (c :: cs)).foldl (cleanStep (decide (c = '/'))) []).reverse
      else if ((splitSlash (c :: cs)).foldl (cleanStep (decide (c = '/'))) []).reverse = [] then
        ['.']
      else joinSlash ((splitSlash (c :: cs)).foldl (cleanStep (decide (c = '/'))) []).reverse :=
  rfl

/-- Cleaning a path that ends with a plain element, followed by a key in path
form: the key is appended to the cleaned path. -/
theorem cleanChars_under (c : Char) (cs : List Char) (X : List (List Char))
    (dc k : List Char) (hsplit : splitSlash (c :: cs) = X ++ [dc])
    (hdc : plainElem dc = true) (hk : ∀ e ∈ splitSlash k, plainElem e = true) :
    cleanChars ((c :: cs) ++ '/' :: k) = cleanChars (c :: cs) ++ '/' :: k := by
  have hfold : (splitSlash (c :: cs)).foldl (cleanStep (decide (c = '/'))) [] =
      dc :: X.foldl (cleanStep (decide (c = '/'))) [] := by
    rw [hsplit, List.foldl_append, List.foldl_cons, List.foldl_nil,
      cleanStep_plain _ _ _ hdc]
  have hfold2 : (splitSlash ((c :: cs) ++ '/' :: k)).foldl (cleanStep (decide (c = '/'))) [] =
      (splitSlash k).reverse ++ dc :: X.foldl (cleanStep (decide (c = '/'))) [] := by
    rw [splitSlash_append, List.foldl_append, hfold, cleanFold_plain _ _ _ hk]
  rw [List.cons_append, cleanChars_cons, cleanChars_cons, ← List.cons_append, hfold, hfold2]
  have hrev : ((splitSlash k).reverse ++ dc :: X.foldl (cleanStep (decide (c = '/'))) []).reverse =
      (dc :: X.foldl (cleanStep (decide (c = '/'))) []).reverse ++ splitSlash k := by
    simp
  rw [hrev, joinSlash_append _ _ (by simp) (splitSlash_ne_nil k), joinSlash_splitSlash]
  by_cases hr : decide (c = '/') = true
  · rw [if_pos hr, if_pos hr]
    rfl
  · rw [if_neg hr, if_neg hr, if_neg (by simp), if_neg (by simp)]

theorem hasPrefixChars_append (p s : List Char) : hasPrefixChars (p ++ s) p = true := by
  induction p with
  | nil => cases s <;> rfl
  | cons c p ih => simp [hasPrefixChars, ih]

theorem TrimPrefix_append (p k : List Char) :
    TrimPrefix (String.mk (p ++ '/' :: k)) (String.mk p ++ "/") = String.mk k := by
  have hd : (String.mk p ++ "/").data = p ++ ['/'] := by
    rw [String.data_append]
  have hs : p ++ '/' :: k = (p ++ ['/']) ++ k := by simp
  unfold TrimPrefix
  rw [hd]
  simp only
  rw [hs, hasPrefixChars_append, if_pos rfl, List.drop_left]

/-- The cache path of a key in path form is the cache directory, a slash and
the key. -/
theorem cachePath_of_plainKey (c : diskCache) (k : String) (hk : plainKey k = true) :
    cachePath c k = String.mk ((filepathJoin [c.dir, CacheDir]).data ++ '/' :: k.data) := by
  have hk' : ∀ e ∈ splitSlash k.data, plainElem e = true := by
    simpa [plainKey, List.all_eq_true] using hk
  have hdcp : plainElem CacheDir.data = true := by decide
  have hdc0 : CacheDir ≠ "" := by decide
  unfold cachePath
  by_cases hd : c.dir = ""
  · have h1 : filepathJoin [c.dir, CacheDir, k] =
        String.mk (cleanChars (CacheDir.data ++ '/' :: k.data)) := by
      simp [filepathJoin, hd, hdc0, Clean, joinSlash]
    have h2 : filepathJoin [c.dir, CacheDir] = String.mk (cleanChars CacheDir.data) := by
      simp [filepathJoin, hd, hdc0, Clean, joinSlash]
    rw [h1, h2]
    have := cleanChars_under 'd' "atacache".data [] CacheDir.data k.data (by decide) hdcp hk'
    exact congrArg String.mk this
  · have hne : c.dir.data ≠ [] := by
      intro h
      apply hd
      cases hc : c.dir
      rw [hc] at h
      simp only at h
      rw [h]
    obtain ⟨ch, rest, hcr⟩ := List.exists_cons_of_ne_nil hne
    have h1 : filepathJoin [c.dir, CacheDir, k] =
        String.mk (cleanChars ((c.dir.data ++ '/' :: CacheDir.data) ++ '/' :: k.data)) := by
      simp [filepathJoin, hd, Clean, joinSlash]
    have h2 : filepathJoin [c.dir, CacheDir] =
        String.mk (cleanChars (c.dir.data ++ '/' :: CacheDir.data)) := by
      simp [filepathJoin, hd, Clean, joinSlash]
    rw [h1, h2, hcr]
    have hsplit : splitSlash (ch :: (rest ++ '/' :: CacheDir.data)) =
        splitSlash (ch :: rest) ++ [CacheDir.data] := by
      rw [← List.cons_append, splitSlash_append]
      rfl
    have := cleanChars_under ch (rest ++ '/' :: CacheDir.data) (splitSlash (ch :: rest))
      CacheDir.data k.data hsplit hdcp hk'
    exact congrArg String.mk this

theorem getKey_cachePath (c : diskCache) (k : String) (hk : plainKey k = true) :
    getKeyFromCachePath c (cachePath c k) = k := by
  rw [cachePath_of_plainKey c k hk]
  unfold getKeyFromCachePath
  have : filepathJoin [c.dir, CacheDir] = String.mk (filepathJoin [c.dir, CacheDir]).data := rfl
  rw [this, TrimPrefix_append]

/-- Claim C11, as the code has it: for every cache root and every key in path
form (elements separated by single slashes, none of them empty, `.` or
`..`), recovering the key from the path that `cachePath` produced returns the
original key; hence `cachePath` is injective on such keys. -/
theorem key_path_inverse (c : diskCache) (k : String) (hk : plainKey k = true) :
    getKeyFromCachePath c (cachePath c k) = k ∧
    ∀ k', plainKey k' = true → cachePath c k = cachePath c k' → k = k' := by
  refine ⟨getKey_cachePath c k hk, ?_⟩
  intro k' hk' h
  rw [← getKey_cachePath c k hk, ← getKey_cachePath c k' hk', h]

/-- Witness of `key_path_inverse` with the key `a/b` under the root `/c`. -/
theorem key_path_inverse_witness :
    cachePath emptyWorld.c "a/b" = "/c/datacache/a/b" ∧
    getKeyFromCachePath emptyWorld.c (cachePath emptyWorld.c "a/b") = "a/b" :=
  ⟨by decide, (key_path_inverse emptyWorld.c "a/b" (by decide)).1⟩

/-- Claim C11 as stated fails: `filepath.Join` cleans the path, so the key
`./a` is stored at the path of the key `a` and is recovered as `a`; the empty
key is stored at the cache directory itself and is recovered as that whole
path; and `cachePath` sends the distinct keys `a` and `./a` to one path. -/
theorem key_path_inverse_fails :
    getKeyFromCachePath emptyWorld.c (cachePath emptyWorld.c "./a") = "a" ∧
    ("a" : String) ≠ "./a" ∧
    cachePath emptyWorld.c "a" = cachePath emptyWorld.c "./a" ∧
    getKeyFromCachePath emptyWorld.c (cachePath emptyWorld.c "") = "/c/datacache" ∧
    getKeyFromCachePath emptyWorld.c (cachePath emptyWorld.c "a//b") = "a/b" ∧
    getKeyFromCachePath emptyWorld.c (cachePath emptyWorld.c "../x") = "/c/x" := by
  decide

/-! ## Capacity probe -/

theorem indexLF_lt (n : Nat) : ∀ (r : Bytes) (i : Nat), indexLF n r = some i → i < r.length := by
  induction n with
  | zero => intro r i h; simp [indexLF] at h
  | succ n ih =>
    intro r i h
    cases r with
    | nil => simp [indexLF] at h
    | cons b r =>
      by_cases hb : b = 10
      · simp [indexLF, hb] at h
        simp [← h]
      · simp only [indexLF, if_neg hb, Option.map_eq_some'] at h
        obtain ⟨j, hj, hji⟩ := h
        have := ih r j hj
        simp only [List.length_cons]
        omega

theorem defaultBufSize_pos : 1 < defaultBufSize := by decide

theorem ReadLine_nil : ReadLine [] = none := by decide

theorem ReadLine_shorter (r line rest : Bytes) (h : ReadLine r = some (line, rest)) :
    rest.length < r.length := by
  unfold ReadLine at h
  cases hi : indexLF defaultBufSize r with
  | some i =>
    rw [hi] at h
    simp only [Option.some.injEq, Prod.mk.injEq] at h
    have := indexLF_lt _ _ _ hi
    rw [← h.2, List.length_drop]
    omega
  | none =>
    rw [hi] at h
    simp only at h
    have hpos := defaultBufSize_pos
    split_ifs at h with h1 h2 h3
    · simp only [Option.some.injEq, Prod.mk.injEq] at h
      rw [← h.2, List.length_drop]
      omega
    · simp only [Option.some.injEq, Prod.mk.injEq] at h
      rw [← h.2, List.length_drop]
      omega
    · simp only [Option.some.injEq, Prod.mk.injEq] at h
      rw [← h.2]
      exact List.length_pos.mpr h3

theorem linesAux_stable : ∀ (f₁ f₂ : Nat) (r : Bytes), r.length < f₁ → r.length < f₂ →
    linesAux f₁ r = linesAux f₂ r := by
  intro f₁
  induction f₁ with
  | zero => intro f₂ r h; omega
  | succ f₁ ih =>
    intro f₂ r h₁ h₂
    cases f₂ with
    | zero => omega
    | succ f₂ =>
      unfold linesAux
      cases hr : ReadLine r with
      | none => rfl
      | some lr =>
        obtain ⟨line, rest⟩ := lr
        have := ReadLine_shorter r line rest hr
        simp only
        rw [ih f₂ rest (by omega) (by omega)]

/-- The lines read from a report are the first line `ReadLine` hands out
followed by the lines read from what is left: the allotted number of steps
never cuts the list short. -/
theorem reportLines_unfold (r : Bytes) :
    reportLines r =
      match ReadLine r with
      | none => []
      | some (line, rest) => line :: reportLines rest := by
  unfold reportLines
  rw [linesAux]
  cases hr : ReadLine r with
  | none => rfl
  | some lr =>
    obtain ⟨line, rest⟩ := lr
    have := ReadLine_shorter r line rest hr
    simp only
    rw [linesAux_stable r.length (rest.length + 1) rest (by omega) (by omega)]

/-- The read loop of `updateCapacity` always ends: the allotted number of
steps is never used up. -/
theorem scanReport_answers : ∀ (fuel : Nat) (r : Bytes), r.length < fuel →
    scanReport fuel r ≠ Probe.outOfFuel := by
  intro fuel
  induction fuel with
  | zero => intro r h; omega
  | succ fuel ih =>
    intro r h
    unfold scanReport
    cases hr : ReadLine r with
    | none => simp
    | some lr =>
      obtain ⟨line, rest⟩ := lr
      have hlt := ReadLine_shorter r line rest hr
      have hrest := ih rest (by omega)
      simp only
      split_ifs
      · exact hrest
      · exact hrest
      · cases ParseInt ((Fields (TrimSpace line)).getD 1 []) with
        | none => simp
        | some total =>
          cases ParseInt ((Fields (TrimSpace line)).getD 2 []) <;> simp

theorem scanReport_stable : ∀ (f₁ f₂ : Nat) (r : Bytes), r.length < f₁ → r.length < f₂ →
    scanReport f₁ r = scanReport f₂ r := by
  intro f₁
  induction f₁ with
  | zero => intro f₂ r h; omega
  | succ f₁ ih =>
    intro f₂ r h₁ h₂
    cases f₂ with
    | zero => omega
    | succ f₂ =>
      unfold scanReport
      cases hr : ReadLine r with
      | none => rfl
      | some lr =>
        obtain ⟨line, rest⟩ := lr
        have := ReadLine_shorter r line rest hr
        simp only
        rw [ih f₂ rest (by omega) (by omega)]

theorem wrap64_times_1024 (x : Int) (hlo : minInt64 ≤ 1024 * x) (hhi : 1024 * x ≤ maxInt64) :
    wrap64 (x * 1024) = 1024 * x := by
  unfold minInt64 at hlo
  unfold maxInt64 at hhi
  rw [wrap64_eq_self (x * 1024) (by omega) (by omega)]
  omega

theorem scanReport_refines (c : diskCache) : ∀ (fuel : Nat) (r : Bytes), r.length < fuel →
    productsFit (linesAux fuel r) = true →
    storeProbe c (scanReport fuel r) = probeSpec c (linesAux fuel r) := by
  intro fuel
  induction fuel with
  | zero => intro r h; omega
  | succ fuel ih =>
    intro r h hfit
    unfold scanReport
    unfold linesAux at hfit ⊢
    cases hr : ReadLine r with
    | none => rfl
    | some lr =>
      obtain ⟨line, rest⟩ := lr
      have hlt := ReadLine_shorter r line rest hr
      rw [hr] at hfit
      simp only at hfit ⊢
      by_cases h1 : hasPrefixBytes line (ascii "Filesystem") = true
      · have hskip : skipsLine line = true := by simp [skipsLine, h1]
        rw [productsFit, if_pos hskip] at hfit
        rw [if_pos h1, ih rest (by omega) hfit, probeSpec, if_pos hskip]
      · rw [if_neg h1]
        by_cases h2 : (Fields (TrimSpace line)).length < 6
        · have hskip : skipsLine line = true := by simp [skipsLine, h2]
          rw [productsFit, if_pos hskip] at hfit
          rw [if_pos h2, ih rest (by omega) hfit, probeSpec, if_pos hskip]
        · rw [if_neg h2]
          have hskip : skipsLine line = false := by
            simp [skipsLine, h1, h2]
          rw [productsFit, hskip] at hfit
          simp only [Bool.false_eq_true, if_false, Bool.and_eq_true] at hfit
          rw [probeSpec, hskip]
          cases ht : ParseInt ((Fields (TrimSpace line)).getD 1 []) with
          | none => simp [storeProbe]
          | some total =>
            cases hu : ParseInt ((Fields (TrimSpace line)).getD 2 []) with
            | none => simp [storeProbe]
            | some used =>
              rw [ht, hu] at hfit
              simp only [fitsKilo, Bool.and_eq_true, decide_eq_true_eq] at hfit
              simp [storeProbe, wrap64_times_1024 total hfit.1.1 hfit.1.2,
                wrap64_times_1024 used hfit.2.1 hfit.2.2]

theorem updateCapacity_store (env : Env) (c : diskCache) (output : Bytes)
    (hdf : env.dfOutput = some output) :
    updateCapacity env c = storeProbe c (scanReport (output.length + 1) output) := by
  unfold updateCapacity
  rw [hdf]
  simp only
  cases scanReport (output.length + 1) output <;> rfl

/-- An error of the probe leaves the cache as it was. -/
theorem updateCapacity_error (env : Env) (c : diskCache) :
    (updateCapacity env c).2 = false → (updateCapacity env c).1 = c := by
  unfold updateCapacity
  cases env.dfOutput with
  | none => intro _; rfl
  | some output =>
    simp only
    cases scanReport (output.length + 1) output <;> simp

/-! ### Lines of the report and lines of the text -/

theorem splitLF_ne_nil (s : Bytes) : splitLF s ≠ [] := by
  cases s with
  | nil => simp [splitLF]
  | cons b r =>
    unfold splitLF
    cases splitLF r with
    | nil => by_cases h : b = 10 <;> simp [h]
    | cons w ws => by_cases h : b = 10 <;> simp [h]

theorem splitLF_cons (b : UInt8) (r w : Bytes) (ws : List Bytes) (h : splitLF r = w :: ws) :
    splitLF (b :: r) = if b = 10 then [] :: w :: ws else (b :: w) :: ws := by
  rw [splitLF, h]

theorem indexLF_of_split : ∀ (r : Bytes) (n : Nat) (w : Bytes) (ws : List Bytes),
    splitLF r = w :: ws → w.length < n →
    (ws ≠ [] → indexLF n r = some w.length ∧ r.take w.length = w ∧
      splitLF (r.drop (w.length + 1)) = ws) ∧
    (ws = [] → indexLF n r = none ∧ r = w) := by
  intro r
  induction r with
  | nil =>
    intro n w ws h hn
    simp only [splitLF, List.cons.injEq] at h
    obtain ⟨hw, hws⟩ := h
    constructor
    · intro hne; exact absurd hws.symm hne
    · intro _
      refine ⟨?_, hw⟩
      cases n <;> rfl
  | cons b r ih =>
    intro n w ws h hn
    obtain ⟨w', ws', h'⟩ := List.exists_cons_of_ne_nil (splitLF_ne_nil r)
    rw [splitLF_cons b r w' ws' h'] at h
    by_cases hb : b = 10
    · rw [if_pos hb] at h
      simp only [List.cons.injEq] at h
      obtain ⟨hw, hws⟩ := h
      subst hw
      cases n with
      | zero => simp at hn
      | succ m =>
        constructor
        · intro _
          refine ⟨by simp [indexLF, hb], rfl, ?_⟩
          simp only [List.length_nil, Nat.zero_add, List.drop_succ_cons, List.drop_zero]
          rw [h', hws]
        · intro hws'
          rw [hws'] at hws
          cases hws
    · rw [if_neg hb] at h
      simp only [List.cons.injEq] at h
      obtain ⟨hw, hws⟩ := h
      subst hw
      subst hws
      cases n with
      | zero => simp at hn
      | succ m =>
        simp only [List.length_cons] at hn
        obtain ⟨ih1, ih2⟩ := ih m w' ws' h' (by omega)
        constructor
        · intro hne
          obtain ⟨a1, a2, a3⟩ := ih1 hne
          refine ⟨?_, ?_, ?_⟩
          · simp [indexLF, hb, a1]
          · simp [a2]
          · simpa using a3
        · intro hnil
          obtain ⟨a1, a2⟩ := ih2 hnil
          refine ⟨?_, ?_⟩
          · simp [indexLF, hb, a1]
          · rw [a2]

theorem ReadLine_of_split (r w : Bytes) (ws : List Bytes) (h : splitLF r = w :: ws)
    (hw : w.length < defaultBufSize) :
    (ws ≠ [] → ReadLine r = some (dropCR w, r.drop (w.length + 1)) ∧
      splitLF (r.drop (w.length + 1)) = ws) ∧
    (ws = [] → ReadLine r = if r = [] then none else some (r, [])) := by
  obtain ⟨h1, h2⟩ := indexLF_of_split r defaultBufSize w ws h hw
  constructor
  · intro hne
    obtain ⟨a1, a2, a3⟩ := h1 hne
    refine ⟨?_, a3⟩
    unfold ReadLine
    rw [a1]
    simp only
    rw [a2]
  · intro hnil
    obtain ⟨a1, a2⟩ := h2 hnil
    unfold ReadLine
    rw [a1]
    simp only
    have : ¬ defaultBufSize ≤ r.length := by
      rw [a2]
      omega
    rw [if_neg this]

theorem linesAux_nil (fuel : Nat) : linesAux fuel [] = [] := by
  cases fuel with
  | zero => rfl
  | succ n => rw [linesAux, ReadLine_nil]

theorem linesAux_eq_text : ∀ (fuel : Nat) (r : Bytes), r.length < fuel →
    (∀ piece ∈ splitLF r, piece.length < defaultBufSize) →
    linesAux fuel r = linesOfPieces (splitLF r) := by
  intro fuel
  induction fuel with
  | zero => intro r h; omega
  | succ fuel ih =>
    intro r hlen hshort
    obtain ⟨w, ws, h⟩ := List.exists_cons_of_ne_nil (splitLF_ne_nil r)
    have hw : w.length < defaultBufSize := hshort w (by rw [h]; exact List.mem_cons_self _ _)
    obtain ⟨h1, h2⟩ := ReadLine_of_split r w ws h hw
    rw [linesAux, h]
    cases ws with
    | nil =>
      rw [h2 rfl]
      obtain ⟨-, hrw⟩ := (indexLF_of_split r defaultBufSize w [] h hw).2 rfl
      by_cases hr : r = []
      · rw [if_pos hr]
        simp only [linesOfPieces]
        rw [← hrw, if_pos hr]
      · rw [if_neg hr]
        simp only [linesOfPieces]
        rw [← hrw, if_neg hr, linesAux_nil]
    | cons q ps =>
      obtain ⟨a1, a2⟩ := h1 (by simp)
      rw [a1]
      simp only [linesOfPieces]
      have hlt := ReadLine_shorter r _ _ a1
      rw [ih (r.drop (w.length + 1)) (by omega) ?_, a2]
      intro piece hp
      rw [a2] at hp
      exact hshort piece (by rw [h]; exact List.mem_cons_of_mem _ hp)

/-! ### A line longer than the read buffer -/

theorem hasPrefixBytes_append (p s : Bytes) : hasPrefixBytes (p ++ s) p = true := by
  induction p with
  | nil => cases s <;> rfl
  | cons b p ih => simp [hasPrefixBytes, ih]

theorem indexLF_none : ∀ (n : Nat) (pre rest : Bytes), pre.length = n →
    (∀ b ∈ pre, b ≠ 10) → indexLF n (pre ++ rest) = none := by
  intro n
  induction n with
  | zero =>
    intro pre rest _ _
    cases h : pre ++ rest <;> rfl
  | succ n ih =>
    intro pre rest hlen hlf
    cases pre with
    | nil => simp at hlen
    | cons b pre =>
      have hb : b ≠ 10 := hlf b (List.mem_cons_self _ _)
      have h := ih pre rest (by simpa using hlen)
        (fun x hx => hlf x (List.mem_cons_of_mem _ hx))
      rw [List.cons_append, indexLF, if_neg hb, h]
      rfl

/-- When the buffer fills up before a line feed is met, `ReadLine` hands out
the full buffer as a line and leaves the rest of the line unread. -/
theorem ReadLine_full (pre rest : Bytes) (hlen : pre.length = defaultBufSize)
    (hlf : ∀ b ∈ pre, b ≠ 10) (hcr : pre.getLast? ≠ some 13) :
    ReadLine (pre ++ rest) = some (pre, rest) := by
  unfold ReadLine
  rw [indexLF_none defaultBufSize pre rest hlen hlf]
  simp only
  have h1 : defaultBufSize ≤ (pre ++ rest).length := by
    rw [List.length_append]
    omega
  rw [if_pos h1, List.take_left' hlen, if_neg hcr, List.drop_left' hlen]

theorem splitLF_noLF (s t : Bytes) (h : ∀ b ∈ s, b ≠ 10) :
    splitLF (s ++ 10 :: t) = s :: splitLF t := by
  induction s with
  | nil =>
    obtain ⟨w, ws, hw⟩ := List.exists_cons_of_ne_nil (splitLF_ne_nil t)
    rw [List.nil_append, splitLF_cons 10 t w ws hw, hw]
    simp
  | cons b s ih =>
    have hb : b ≠ 10 := h b (List.mem_cons_self _ _)
    have ih' := ih (fun x hx => h x (List.mem_cons_of_mem _ hx))
    rw [List.cons_append, splitLF_cons b _ s (splitLF t) ih', if_neg hb]

theorem longHeader_length : longHeader.length = defaultBufSize := by
  have h : (ascii "Filesystem").length = 10 := by decide
  unfold longHeader
  rw [List.length_append, List.length_replicate, h]
  rfl

theorem longHeader_noLF : ∀ b ∈ longHeader, b ≠ 10 := by
  intro b hb
  unfold longHeader at hb
  rcases List.mem_append.mp hb with h | h
  · exact (by decide : ∀ x ∈ ascii "Filesystem", x ≠ 10) b h
  · rw [List.eq_of_mem_replicate h]
    decide

theorem longHeader_last : longHeader.getLast? ≠ some 13 := by
  have hne : List.replicate 4086 (32 : UInt8) ≠ [] := by
    intro h
    have := congrArg List.length h
    rw [List.length_replicate] at this
    exact absurd this (by decide)
  unfold longHeader
  rw [List.getLast?_append_of_ne_nil _ hne, List.getLast?_replicate]
  decide

theorem longReport_scan :
    scanReport (longReport.length + 1) longReport = Probe.found 7 7 := by
  have hread : ReadLine longReport = some (longHeader, ascii "a 7 7 7 7 7\n") :=
    ReadLine_full longHeader _ longHeader_length longHeader_noLF longHeader_last
  have hstart : hasPrefixBytes longHeader (ascii "Filesystem") = true :=
    hasPrefixBytes_append _ _
  have hlen : longReport.length = 4108 := by
    have h : (ascii "a 7 7 7 7 7\n").length = 12 := by decide
    unfold longReport
    rw [List.length_append, longHeader_length, h]
    rfl
  have hstep : scanReport (longReport.length + 1) longReport =
      scanReport longReport.length (ascii "a 7 7 7 7 7\n") := by
    rw [scanReport, hread]
    simp only [hstart, if_true]
  rw [hstep, scanReport_stable longReport.length 13 (ascii "a 7 7 7 7 7\n")
    (by rw [hlen]; decide) (by decide)]
  decide

theorem longReport_lines : textLines longReport = [longHeader ++ ascii "a 7 7 7 7 7"] := by
  have hsplit : splitLF longReport = [longHeader ++ ascii "a 7 7 7 7 7", []] := by
    have : longReport = (longHeader ++ ascii "a 7 7 7 7 7") ++ 10 :: [] := by
      unfold longReport
      rw [List.append_assoc]
      rfl
    rw [this, splitLF_noLF]
    · rfl
    · intro b hb
      rcases List.mem_append.mp hb with h | h
      · exact longHeader_noLF b h
      · exact (by decide : ∀ x ∈ ascii "a 7 7 7 7 7", x ≠ 10) b h
  have hcr : dropCR (longHeader ++ ascii "a 7 7 7 7 7") = longHeader ++ ascii "a 7 7 7 7 7" := by
    unfold dropCR
    rw [List.getLast?_append_of_ne_nil _ (by decide)]
    rw [if_neg (by decide)]
  unfold textLines
  rw [hsplit]
  simp [linesOfPieces, hcr]

theorem longReport_skipped : skipsLine (longHeader ++ ascii "a 7 7 7 7 7") = true := by
  have : hasPrefixBytes (longHeader ++ ascii "a 7 7 7 7 7") (ascii "Filesystem") = true := by
    unfold longHeader
    rw [List.append_assoc]
    exact hasPrefixBytes_append _ _
  simp [skipsLine, this]

/-- Claim C12, as the code has it: given the text of a disk-usage report in which every
line is shorter than the 4096 bytes of the read buffer, and in which 1024
times each of the two numbers of the first data line is still an `int64`,
`updateCapacity` passes over every line that starts with `Filesystem` and
every line with fewer than 6 white-space separated fields, and on the first
remaining line sets `capacity` and `used` to 1024 times field 2 and field 3,
read as base-10 `int64`; when one of the two fields does not parse or no line
remains it returns an error. On an error, whatever the report, it leaves the
cache, `capacity` and `used` with it, as it was. -/
theorem updateCapacity_parses_report (env : Env) (c : diskCache) (output : Bytes)
    (hdf : env.dfOutput = some output)
    (hshort : ∀ piece ∈ splitLF output, piece.length < defaultBufSize)
    (hfit : productsFit (textLines output) = true) :
    updateCapacity env c = probeSpec c (textLines output) ∧
    (∀ (env' : Env) (c' : diskCache),
      (updateCapacity env' c').2 = false → (updateCapacity env' c').1 = c') := by
  have hlines : linesAux (output.length + 1) output = textLines output :=
    linesAux_eq_text (output.length + 1) output (by omega) hshort
  refine ⟨?_, updateCapacity_error⟩
  rw [updateCapacity_store env c output hdf,
    scanReport_refines c (output.length + 1) output (by omega) (by rw [hlines]; exact hfit),
    hlines]

set_option maxRecDepth 1000000 in
/-- Witness of `updateCapacity_parses_report`: a report whose data line is
`/dev/sda1 1 1 0 100% /c` sets both counters to 1024, and a report whose first
line with 6 fields has `-` for its size is an error that changes nothing,
though a well-formed line follows. -/
theorem updateCapacity_parses_report_witness :
    (∀ piece ∈ splitLF fullReport, piece.length < defaultBufSize) ∧
    productsFit (textLines fullReport) = true ∧
    updateCapacity (Env.reliable fullReport) emptyWorld.c =
      ({ emptyWorld.c with capacity := 1024, used := 1024 }, true) ∧
    textLines fullReport =
      [ascii "Filesystem 1K-blocks Used Available Use% Mounted on",
       ascii "/dev/sda1 1 1 0 100% /c"] ∧
    updateCapacity (Env.reliable badReport) emptyWorld.c = (emptyWorld.c, false) :=
  ⟨by decide, by decide,
    ((updateCapacity_parses_report (Env.reliable fullReport) emptyWorld.c fullReport rfl
      (by decide) (by decide)).1).trans (by decide),
    by decide,
    ((updateCapacity_parses_report (Env.reliable badReport) emptyWorld.c badReport rfl
      (by decide) (by decide)).1).trans (by decide)⟩

set_option maxRecDepth 1000000 in
/-- Claim C12 as stated fails, in two ways. On a report whose data line has
2^53 blocks of 1 KB, field 2 parses as an `int64` and the capacity stored is
the `int64` product, which has wrapped around to -2^63 and is not 1024 times
the field. On a report of one line of 4107 bytes that starts with
`Filesystem`, the text has no line left once that line is skipped, yet
`updateCapacity` returns no error: the reader hands the line out in two
pieces, and the second piece, `a 7 7 7 7 7`, is read as a data line. -/
theorem probe_differs_from_text :
    textLines overflowReport =
      [ascii "Filesystem 1K-blocks Used Available Use% Mounted on",
       ascii "/dev/sda1 9007199254740992 1 0 1% /c"] ∧
    ParseInt (ascii "9007199254740992") = some 9007199254740992 ∧
    updateCapacity (Env.reliable overflowReport) emptyWorld.c =
      ({ emptyWorld.c with capacity := -9223372036854775808, used := 1024 }, true) ∧
    (1024 : Int) * 9007199254740992 ≠ -9223372036854775808 ∧
    textLines longReport = [longHeader ++ ascii "a 7 7 7 7 7"] ∧
    skipsLine (longHeader ++ ascii "a 7 7 7 7 7") = true ∧
    probeSpec emptyWorld.c (textLines longReport) = (emptyWorld.c, false) ∧
    updateCapacity (Env.reliable longReport) emptyWorld.c =
      ({ emptyWorld.c with capacity := 7168, used := 7168 }, true) := by
  refine ⟨by decide, by decide, by decide, by decide, longReport_lines, longReport_skipped,
    ?_, ?_⟩
  · rw [longReport_lines, probeSpec, if_pos longReport_skipped, probeSpec]
  · rw [updateCapacity_store (Env.reliable longReport) emptyWorld.c longReport rfl,
      longReport_scan]
    decide


end DiskCache
